import Mathlib

/-! GPUTextureCache (src/core/gpu_hw_texture_cache.h)

A shallow embedding of the texture-cache header.

* `SourceKey`: the packed key, its constructors, `HasPalette`, the assignment operator and
  the `memcmp`-based comparison operators over its 4-byte object representation.
* `MAX_PAGE_REFS_PER_SOURCE`, the intrusive list types `TList` / `TListNode` and the
  `Source` record that embeds seven list nodes.
* `HashPartialPalette` and `DestroySource`, which the header declares and whose bodies are
  defined elsewhere: they are modelled from the specification, over the types of the header.
  The cache state is a heap of sources, the page lists and a heap of hash cache entries;
  `State.WF` is the invariant of the doubly linked lists.

Machine integers are bounded naturals (`u8 = Fin 256`, `u16 = Fin 65536`, ...). Pointers
are handles, `Option` for a pointer that may be null; an operation that would follow a
dangling pointer returns `none`.
-/

namespace GPUTextureCache

/-! ## Machine types -/

/-- An unsigned 8-bit integer. -/
abbrev u8 := Fin 256

/-- An unsigned 16-bit integer. -/
abbrev u16 := Fin 65536

/-- Modelled from the spec: `GPUTextureMode` is declared in gpu_types.h, which is
not among the sources. It is an enumeration stored in one byte (the key is
`page: 8 bits, mode: 8 bits, palette: 16 bits` and `sizeof(SourceKey) == 4`),
so an object of the type holds a `u8`. -/
structure GPUTextureMode where
  val : u8
  deriving DecidableEq

/-- Modelled from the spec: first enumerator of `enum{4-bit palette, 8-bit palette,
16-bit direct}` (gpu_types.h is not among the sources). -/
def GPUTextureMode.Palette4Bit : GPUTextureMode := ⟨0⟩

/-- Modelled from the spec: second enumerator of `enum{4-bit palette, 8-bit palette,
16-bit direct}` (gpu_types.h is not among the sources). -/
def GPUTextureMode.Palette8Bit : GPUTextureMode := ⟨1⟩

/-- Modelled from the spec: third enumerator of `enum{4-bit palette, 8-bit palette,
16-bit direct}` (gpu_types.h is not among the sources). -/
def GPUTextureMode.Direct16Bit : GPUTextureMode := ⟨2⟩

/-- Modelled from the spec: `GPUTexturePaletteReg` is declared in gpu_types.h, which
is not among the sources. The header reads and writes its member `bits`; the
register is 16 bits wide. -/
structure GPUTexturePaletteReg where
  bits : u16
  deriving DecidableEq

/-! ## SourceKey -/

/-- The struct `SourceKey`: `u8 page; GPUTextureMode mode; GPUTexturePaletteReg palette;`. -/
structure SourceKey where
  page : u8
  mode : GPUTextureMode
  palette : GPUTexturePaletteReg
  deriving DecidableEq

/-- The constructor `SourceKey(u8 page_, GPUTexturePaletteReg palette_, GPUTextureMode mode_)`
with initialiser list `page(page_), mode(mode_), palette(palette_)`. -/
def SourceKey.new (page_ : u8) (palette_ : GPUTexturePaletteReg) (mode_ : GPUTextureMode) :
    SourceKey :=
  { page := page_, mode := mode_, palette := palette_ }

/-- The copy constructor `SourceKey(const SourceKey& k) : page(k.page), mode(k.mode),
palette(k.palette)`. -/
def SourceKey.copy (k : SourceKey) : SourceKey :=
  { page := k.page, mode := k.mode, palette := k.palette }

/-- The member `HasPalette()`: `return (mode < GPUTextureMode::Direct16Bit);`. -/
def SourceKey.HasPalette (k : SourceKey) : Bool :=
  decide (k.mode.val < GPUTextureMode.Direct16Bit.val)

/-- Width in bits of the member `page`. -/
def SourceKey.pageBits : Nat := 8

/-- Width in bits of the member `mode`. -/
def SourceKey.modeBits : Nat := 8

/-- Width in bits of the member `palette`. -/
def SourceKey.paletteBits : Nat := 16

/-- The value of `sizeof(SourceKey)`, fixed by `static_assert(sizeof(SourceKey) == 4)`. -/
def SourceKey.sizeof : Nat := 4

/-- Low byte of a 16-bit value. -/
def u16.lo (x : u16) : u8 := ⟨x.val % 256, Nat.mod_lt _ (by decide)⟩

/-- High byte of a 16-bit value. -/
def u16.hi (x : u16) : u8 := ⟨x.val / 256, by have := x.isLt; omega⟩

/-- The object representation of a key, the bytes `memcmp` reads: `page` at offset 0,
`mode` at offset 1, `palette.bits` at offsets 2 and 3 (low byte first). -/
def SourceKey.bytes (k : SourceKey) : List u8 :=
  [k.page, k.mode.val, u16.lo k.palette.bits, u16.hi k.palette.bits]

/-- The library function `std::memcmp(p, q, n)`: compares the first `n` bytes as unsigned
values and returns zero when they all agree, otherwise the difference of the first pair
that differs. Both operands hold at least `n` bytes wherever it is called. -/
def memcmp : List u8 → List u8 → Nat → Int
  | _, _, 0 => 0
  | a :: p, b :: q, n + 1 => if a = b then memcmp p q n else (a.val : Int) - (b.val : Int)
  | _, _, _ + 1 => 0

/-- The operator `operator==`: `std::memcmp(&k, this, sizeof(SourceKey)) == 0`. -/
def SourceKey.eq (this k : SourceKey) : Bool :=
  memcmp k.bytes this.bytes SourceKey.sizeof == 0

/-- The operator `operator!=`: `std::memcmp(&k, this, sizeof(SourceKey)) != 0`. -/
def SourceKey.ne (this k : SourceKey) : Bool :=
  memcmp k.bytes this.bytes SourceKey.sizeof != 0

/-- Memory holding `SourceKey` objects, by address. -/
abbrev KeyStore := Nat → SourceKey

/-- The operator `operator=(const SourceKey& k)` on the object at address `this`, with `k`
a reference to the object at address `k`: the three member stores in program order, each
reading its operand from memory as it is at that point. -/
def SourceKey.assign (st : KeyStore) (this k : Nat) : KeyStore :=
  let st1 := Function.update st this { st this with page := (st k).page }
  let st2 := Function.update st1 this { st1 this with mode := (st1 k).mode }
  Function.update st2 this
    { st2 this with palette := { (st2 this).palette with bits := (st2 k).palette.bits } }

/-! ## Constants and the intrusive list types -/

/-- An unsigned 32-bit integer. -/
abbrev u32 := Fin 4294967296

/-- An unsigned 64-bit integer. -/
abbrev u64 := Fin 18446744073709551616

/-- The constant `MAX_PAGE_REFS_PER_SOURCE`, documented in the header as
"4 pages in C16 mode, 2+4 pages in P8 mode, 1+1 pages in P4 mode". -/
abbrev MAX_PAGE_REFS_PER_SOURCE : Nat := 6

/-- Modelled from the spec: the number of pages a source of a given mode spans. No function
computing it is among the sources; the counts are those of the comment on
`MAX_PAGE_REFS_PER_SOURCE` and of the spec: "16-bit direct mode spans up to 4 pages; 8-bit
palette spans up to 2 texture pages + up to 4 palette pages; 4-bit palette spans 1 texture
page + 1 palette page". -/
def pageRefsForMode (mode : GPUTextureMode) : Nat :=
  if mode = GPUTextureMode.Palette4Bit then 1 + 1
  else if mode = GPUTextureMode.Palette8Bit then 2 + 4
  else 4

/-- The type `HashType`: `using HashType = u64`. -/
abbrev HashType := u64

/-- The enum `PaletteRecordFlags : u32`, a set of bit flags. -/
structure PaletteRecordFlags where
  bits : u32
  deriving DecidableEq

/-- The enumerator `PaletteRecordFlags::None = 0`. -/
def PaletteRecordFlags.None : PaletteRecordFlags := ⟨0⟩

/-- The enumerator `PaletteRecordFlags::HasSemiTransparentDraws = (1 << 0)`. -/
def PaletteRecordFlags.HasSemiTransparentDraws : PaletteRecordFlags := ⟨1⟩

/-- Modelled from the spec: `GSVector4i` is declared outside the sources; the header uses it
for "axis-aligned integer rectangles in VRAM". -/
structure GSVector4i where
  left : Int
  top : Int
  right : Int
  bottom : Int
  deriving DecidableEq

/-- Which of the list nodes embedded in a `Source`: `page_refs[i]` or `hash_cache_ref`. -/
inductive NodeSlot where
  | page_ref (i : Fin MAX_PAGE_REFS_PER_SOURCE)
  | hash_cache_ref
  deriving DecidableEq, Fintype

/-- A pointer `TListNode<Source>*`. List nodes are members of a `Source`, so a node
pointer names the source (by its address) and the member. -/
structure NodePtr where
  src : Nat
  slot : NodeSlot
  deriving DecidableEq

/-- A pointer `TList<Source>*`: the membership list of a VRAM page, or the list of the
sources that share one hash cache entry. -/
inductive ListPtr where
  | page (pn : Nat)
  | hash_cache (entry : Nat)
  deriving DecidableEq

/-- The struct `TList<Source>`: `TListNode<T>* head; TListNode<T>* tail;`. -/
structure TList where
  head : Option NodePtr
  tail : Option NodePtr
  deriving DecidableEq

/-- The struct `TListNode<Source>`: `T* ref; TList<T>* list; TListNode<T>* prev;
TListNode<T>* next;`. -/
structure TListNode where
  ref : Option Nat
  list : Option ListPtr
  prev : Option NodePtr
  next : Option NodePtr
  deriving DecidableEq

/-- The struct `Source`, member for member. `texture` and `from_hash_cache` are pointers. -/
structure Source where
  key : SourceKey
  num_page_refs : u32
  texture : Option Nat
  from_hash_cache : Option Nat
  texture_rect : GSVector4i
  palette_rect : GSVector4i
  texture_hash : HashType
  palette_hash : HashType
  active_uv_rect : GSVector4i
  palette_record_flags : PaletteRecordFlags
  page_refs : Mathlib.Vector TListNode MAX_PAGE_REFS_PER_SOURCE
  hash_cache_ref : TListNode

/-- The list nodes embedded in a source: the elements of `page_refs`, then
`hash_cache_ref`. -/
def Source.nodes (s : Source) : List TListNode :=
  s.page_refs.toList ++ [s.hash_cache_ref]

/-- The node of a source that a slot names. -/
def Source.node (s : Source) : NodeSlot → TListNode
  | NodeSlot.page_ref i => s.page_refs.get i
  | NodeSlot.hash_cache_ref => s.hash_cache_ref

/-- Store into the node of a source that a slot names. -/
def Source.setNode (s : Source) : NodeSlot → TListNode → Source
  | NodeSlot.page_ref i, v => { s with page_refs := s.page_refs.set i v }
  | NodeSlot.hash_cache_ref, v => { s with hash_cache_ref := v }

/-! ## HashPartialPalette -/

/-- Modelled from the spec: the video memory as 16-bit words by address ("the emulated
console's video memory, addressed as a 2D pixel grid"); its declaration is not among the
sources. -/
abbrev VRAM := Nat → u16

/-- Modelled from the spec: the raw bytes of the palette entries with index in `[min, max]`,
in index order, each entry low byte first. `entryAddr palette mode i` is the VRAM address of
entry `i` of the palette the register selects; the VRAM geometry is "an external fact about
the emulated hardware" and stays a parameter. -/
def paletteBytes (entryAddr : GPUTexturePaletteReg → GPUTextureMode → Nat → Nat) (vram : VRAM)
    (palette : GPUTexturePaletteReg) (mode : GPUTextureMode) (min max : u32) : List u8 :=
  (List.range' min.val (max.val + 1 - min.val)).flatMap
    (fun i => [u16.lo (vram (entryAddr palette mode i)), u16.hi (vram (entryAddr palette mode i))])

/-- Modelled from the spec: `HashPartialPalette(palette, mode, min, max)`, declared in the
header and defined outside the sources. It "hashes only the palette entries actually
referenced by the texture's pixel value range `[min,max]`, not the whole palette", producing
a 64-bit hash "over raw VRAM bytes". The byte hash itself is a parameter. -/
def HashPartialPalette (hashBytes : List u8 → HashType)
    (entryAddr : GPUTexturePaletteReg → GPUTextureMode → Nat → Nat) (vram : VRAM)
    (palette : GPUTexturePaletteReg) (mode : GPUTextureMode) (min max : u32) : HashType :=
  hashBytes (paletteBytes entryAddr vram palette mode min max)

/-! ## Cache state and DestroySource -/

/-- Modelled from the spec: `HashCacheEntry` is only forward-declared in the header. It
"owns exactly one GPU texture resource" and is "reference-counted implicitly by the set of
Sources linked into its list". -/
structure HashCacheEntry where
  sources : TList
  texture : Option Nat

/-- Modelled from the spec: the state of the cache, which the header keeps in globals defined
outside the sources. `sources` is the heap of `Source` objects by address (`none` where no
source is allocated), `pages` holds the membership list of every VRAM page, `hash_cache` is
the heap of hash cache entries by address and `gpu_textures` lists the live GPU textures. -/
structure State where
  sources : List (Option Source)
  pages : List TList
  hash_cache : List (Option HashCacheEntry)
  gpu_textures : List Nat

/-- Dereference a `Source*`. -/
def State.source? (c : State) (src : Nat) : Option Source :=
  (c.sources[src]?).join

/-- Dereference a `HashCacheEntry*`. -/
def State.entry? (c : State) (h : Nat) : Option HashCacheEntry :=
  (c.hash_cache[h]?).join

/-- Dereference a `TListNode<Source>*`. -/
def State.node? (c : State) (p : NodePtr) : Option TListNode :=
  (c.source? p.src).map (fun s => s.node p.slot)

/-- Dereference a `TList<Source>*`. -/
def State.list? (c : State) : ListPtr → Option TList
  | ListPtr.page pn => c.pages[pn]?
  | ListPtr.hash_cache h => (c.entry? h).map (fun e => e.sources)

/-- Store through a `TListNode<Source>*`; `none` when the pointer dangles. -/
def State.setNode (c : State) (p : NodePtr) (v : TListNode) : Option State :=
  match c.source? p.src with
  | some s => some { c with sources := c.sources.set p.src (some (s.setNode p.slot v)) }
  | none => none

/-- Store through a `TList<Source>*`; `none` when the pointer dangles. -/
def State.setList (c : State) : ListPtr → TList → Option State
  | ListPtr.page pn, l =>
    if pn < c.pages.length then some { c with pages := c.pages.set pn l } else none
  | ListPtr.hash_cache h, l =>
    match c.entry? h with
    | some e => some { c with hash_cache := c.hash_cache.set h (some { e with sources := l }) }
    | none => none

/-- Modelled from the spec: unlinking a node from the `TList` it is linked into, the step
`DestroySource` repeats to remove a source "from every list it was linked into". The body is
not among the sources; this is the removal the declared members determine: the predecessor's
`next` (or the list's `head`) takes the node's `next`, the successor's `prev` (or the list's
`tail`) takes the node's `prev`. `none` on a dangling or null pointer. -/
def ListUnlink (c : State) (p : NodePtr) : Option State :=
  (c.node? p).bind fun node =>
  node.list.bind fun L =>
  (match node.prev with
    | some q => (c.node? q).bind fun x => c.setNode q { x with next := node.next }
    | none => (c.list? L).bind fun l => c.setList L { l with head := node.next }).bind fun c1 =>
  match node.next with
    | some q => (c1.node? q).bind fun x => c1.setNode q { x with prev := node.prev }
    | none => (c1.list? L).bind fun l => c1.setList L { l with tail := node.prev }

/-- Modelled from the spec: the loop of `DestroySource` over the page references,
`page_refs[i]`, `page_refs[i + 1]`, ..., `count` of them. `none` when an index leaves the
array. -/
def unlinkPageRefs (src : Nat) : Nat → Nat → State → Option State
  | _, 0, c => some c
  | i, count + 1, c =>
    if h : i < MAX_PAGE_REFS_PER_SOURCE then
      (ListUnlink c ⟨src, NodeSlot.page_ref ⟨i, h⟩⟩).bind (unlinkPageRefs src (i + 1) count)
    else none

/-- Modelled from the spec: destroying a GPU texture; a null pointer destroys nothing. -/
def State.releaseTexture (c : State) : Option Nat → State
  | some t => { c with gpu_textures := c.gpu_textures.erase t }
  | none => c

/-- Modelled from the spec: the part of `DestroySource` that leaves the hash cache list and
"releases its GPU reference (decrementing/destroying the shared HashCacheEntry if this was
its last member)". A source with `from_hash_cache` does not own its texture, the entry does,
and the entry is "destroyed when that list becomes empty"; a source without one owns its
texture. `none` on a dangling or null pointer. -/
def releaseTextureRef (c : State) (src : Nat) (s : Source) : Option State :=
  match s.from_hash_cache with
  | some h =>
    (ListUnlink c ⟨src, NodeSlot.hash_cache_ref⟩).bind fun c0 =>
    (c0.entry? h).bind fun e =>
    if e.sources.head = none then
      some ({ c0 with hash_cache := c0.hash_cache.set h none }.releaseTexture e.texture)
    else
      some c0
  | none => some (c.releaseTexture s.texture)

/-- Modelled from the spec: `DestroySource(src)`, declared in the header and defined outside
the sources. It "removes it from all lists it is linked into (page lists + hash-cache list),
releases its GPU reference (decrementing/destroying the shared HashCacheEntry if this was its
last member), and frees the Source". `none` on a dangling or null pointer. -/
def DestroySource (c : State) (src : Nat) : Option State :=
  (c.source? src).bind fun s =>
  (unlinkPageRefs src 0 s.num_page_refs.val c).bind fun c1 =>
  (releaseTextureRef c1 src s).bind fun c2 =>
  some { c2 with sources := c2.sources.set src none }

/-- Modelled from the spec: the walk of a list from a node on, as the sweeps of the cache do
it ("walk that page's membership list"): follow `next` and yield each node's `ref`. `none`
when the fuel runs out or a pointer dangles. -/
def State.walk (c : State) : Nat → Option NodePtr → Option (List Nat)
  | _, none => some []
  | 0, some _ => none
  | fuel + 1, some p =>
    match c.node? p with
    | none => none
    | some node =>
      match node.ref with
      | none => none
      | some r => (c.walk fuel node.next).map (fun rest => r :: rest)

/-- Modelled from the spec: the sources a list yields when walked from its head. -/
def State.listSources (c : State) (fuel : Nat) (L : ListPtr) : Option (List Nat) :=
  (c.list? L).bind (fun l => c.walk fuel l.head)

/-! ## The list invariant

The doubly linked lists are described by the sequence of node pointers each one holds;
`seqs L` is the sequence of list `L`. -/

/-- First pointer of a node sequence, or `q` when the sequence is empty. -/
def headOr : List NodePtr → Option NodePtr → Option NodePtr
  | [], q => q
  | p :: _, _ => some p

/-- Last pointer of a node sequence, or `q` when the sequence is empty. -/
def lastOr : List NodePtr → Option NodePtr → Option NodePtr
  | [], q => q
  | p :: rest, _ => lastOr rest (some p)

/-- In the node memory `g`, the nodes `ns` are chained in this order as members of list `L`:
each one's `ref` is the source that embeds it, its `list` is `L`, its `prev` is the node
before it (`before` for the first) and its `next` the node after it (`after` for the
last). -/
def Seg (g : NodePtr → Option TListNode) (L : ListPtr) :
    Option NodePtr → List NodePtr → Option NodePtr → Prop
  | _, [], _ => True
  | before, p :: rest, after =>
    g p = some ⟨some p.src, some L, before, headOr rest after⟩ ∧ Seg g L (some p) rest after

/-- List `L` of the state is the well-formed doubly linked list of the nodes `ns`: `head` and
`tail` are its first and last node, the nodes are chained in order and no node occurs
twice. -/
def State.IsList (c : State) (L : ListPtr) (ns : List NodePtr) : Prop :=
  c.list? L = some ⟨headOr ns none, lastOr ns none⟩ ∧ Seg c.node? L none ns none ∧ ns.Nodup

/-- Whether a source uses an embedded node: `page_refs[i]` for `i < num_page_refs`, and
`hash_cache_ref` when the source has a hash cache entry. -/
def Source.usesSlot (s : Source) : NodeSlot → Bool
  | NodeSlot.page_ref i => decide (i.val < s.num_page_refs.val)
  | NodeSlot.hash_cache_ref => s.from_hash_cache.isSome

/-- Whether a node of source `s` may be a member of list `L`: a used page reference in a page
list, the hash cache node in the list of the entry `from_hash_cache` points to. -/
def Source.slotMatches (s : Source) : ListPtr → NodeSlot → Bool
  | ListPtr.page _, NodeSlot.page_ref i => decide (i.val < s.num_page_refs.val)
  | ListPtr.hash_cache h, NodeSlot.hash_cache_ref => decide (s.from_hash_cache = some h)
  | _, _ => false

/-- Node `p` belongs to a live source that may have it in list `L`. -/
def State.SlotOK (c : State) (L : ListPtr) (p : NodePtr) : Prop :=
  ∃ s ∈ c.source? p.src, s.slotMatches L p.slot = true

/-- Node `p` is in the sequence of some list of the state. -/
def State.LinkedIn (c : State) (seqs : ListPtr → List NodePtr) (p : NodePtr) : Prop :=
  (∃ pn < c.pages.length, p ∈ seqs (ListPtr.page pn)) ∨
  (∃ h < c.hash_cache.length, (c.entry? h).isSome = true ∧ p ∈ seqs (ListPtr.hash_cache h))

/-- The invariant of the lists while the nodes `U` are being unlinked: every page list and
the list of every live hash cache entry is a well-formed list whose nodes are outside `U`
and belong to sources that use them; every live source has at most
`MAX_PAGE_REFS_PER_SOURCE` page references, and each node it uses is in a list unless it is
in `U`. -/
def State.Inv (c : State) (seqs : ListPtr → List NodePtr) (U : List NodePtr) : Prop :=
  (∀ pn < c.pages.length,
    c.IsList (ListPtr.page pn) (seqs (ListPtr.page pn)) ∧
    ∀ p ∈ seqs (ListPtr.page pn), p ∉ U ∧ c.SlotOK (ListPtr.page pn) p) ∧
  (∀ h < c.hash_cache.length, (c.entry? h).isSome = true →
    c.IsList (ListPtr.hash_cache h) (seqs (ListPtr.hash_cache h)) ∧
    ∀ p ∈ seqs (ListPtr.hash_cache h), p ∉ U ∧ c.SlotOK (ListPtr.hash_cache h) p) ∧
  (∀ src < c.sources.length, ∀ s ∈ c.source? src,
    s.num_page_refs.val ≤ MAX_PAGE_REFS_PER_SOURCE ∧
    ∀ slot : NodeSlot, s.usesSlot slot = true → (⟨src, slot⟩ : NodePtr) ∉ U →
      c.LinkedIn seqs ⟨src, slot⟩)

/-- The invariant of the cache between operations: `State.Inv` with no node being
unlinked. -/
def State.WF (c : State) (seqs : ListPtr → List NodePtr) : Prop :=
  c.Inv seqs []

instance instDecidableSeg (g : NodePtr → Option TListNode) (L : ListPtr) :
    ∀ (before : Option NodePtr) (ns : List NodePtr) (after : Option NodePtr),
      Decidable (Seg g L before ns after)
  | _, [], _ => isTrue trivial
  | _, p :: rest, after =>
    have := instDecidableSeg g L (some p) rest after
    inferInstanceAs (Decidable (_ ∧ _))

instance instDecidableIsList (c : State) (L : ListPtr) (ns : List NodePtr) :
    Decidable (c.IsList L ns) := by
  unfold State.IsList
  infer_instance

instance instDecidableSlotOK (c : State) (L : ListPtr) (p : NodePtr) :
    Decidable (c.SlotOK L p) := by
  unfold State.SlotOK
  infer_instance

instance instDecidableLinkedIn (c : State) (seqs : ListPtr → List NodePtr) (p : NodePtr) :
    Decidable (c.LinkedIn seqs p) := by
  unfold State.LinkedIn
  infer_instance

instance instDecidableInv (c : State) (seqs : ListPtr → List NodePtr) (U : List NodePtr) :
    Decidable (c.Inv seqs U) := by
  unfold State.Inv
  infer_instance

instance instDecidableWF (c : State) (seqs : ListPtr → List NodePtr) :
    Decidable (c.WF seqs) := by
  unfold State.WF
  infer_instance

/-- The parts of the state that unlinking a node leaves alone: which sources, pages and hash
cache entries exist, each source's `num_page_refs` and `from_hash_cache`, each entry's
texture, and the GPU textures. -/
structure State.SameShape (c c2 : State) : Prop where
  sources_length : c2.sources.length = c.sources.length
  pages_length : c2.pages.length = c.pages.length
  hash_cache_length : c2.hash_cache.length = c.hash_cache.length
  source_meta : ∀ src, (c2.source? src).map (fun s => (s.num_page_refs, s.from_hash_cache)) =
    (c.source? src).map (fun s => (s.num_page_refs, s.from_hash_cache))
  entry_texture : ∀ h, (c2.entry? h).map (fun e => e.texture) =
    (c.entry? h).map (fun e => e.texture)
  gpu_textures : c2.gpu_textures = c.gpu_textures

/-- What unlinking a node whose members are `node` does to the node at `q`: `next` is
replaced where `q` is the predecessor, `prev` where `q` is the successor. -/
def unlinkNode (node : TListNode) (q : NodePtr) (x : TListNode) : TListNode :=
  { x with
    prev := if node.next = some q then node.prev else x.prev
    next := if node.prev = some q then node.next else x.next }

/-- What unlinking a node of list `L` whose members are `node` does to the list at `L2`:
`head` is replaced when the node has no predecessor, `tail` when it has no successor. -/
def unlinkList (node : TListNode) (L L2 : ListPtr) (l : TList) : TList :=
  if L2 = L then
    { head := if node.prev = none then node.next else l.head
      tail := if node.next = none then node.prev else l.tail }
  else l

/-! ## A small cache

Two sources and one hash cache entry over two pages: source 0 spans pages 0 and 1, source 1
spans page 0, and both share the entry. -/

/-- A node that is in no list. -/
def exampleNullNode : TListNode := ⟨none, none, none, none⟩

/-- The empty rectangle. -/
def exampleRect : GSVector4i := ⟨0, 0, 0, 0⟩

/-- Source 0: two page references and the hash cache reference in use. -/
def exampleSource0 : Source :=
  { key := SourceKey.new 0 ⟨0⟩ GPUTextureMode.Palette4Bit
    num_page_refs := 2
    texture := some 10
    from_hash_cache := some 0
    texture_rect := exampleRect
    palette_rect := exampleRect
    texture_hash := 0
    palette_hash := 0
    active_uv_rect := exampleRect
    palette_record_flags := PaletteRecordFlags.None
    page_refs :=
      ⟨[⟨some 0, some (ListPtr.page 0), none, some ⟨1, NodeSlot.page_ref 0⟩⟩,
        ⟨some 0, some (ListPtr.page 1), none, none⟩,
        exampleNullNode, exampleNullNode, exampleNullNode, exampleNullNode], rfl⟩
    hash_cache_ref :=
      ⟨some 0, some (ListPtr.hash_cache 0), some ⟨1, NodeSlot.hash_cache_ref⟩, none⟩ }

/-- Source 1: one page reference and the hash cache reference in use. -/
def exampleSource1 : Source :=
  { key := SourceKey.new 0 ⟨1⟩ GPUTextureMode.Palette4Bit
    num_page_refs := 1
    texture := some 10
    from_hash_cache := some 0
    texture_rect := exampleRect
    palette_rect := exampleRect
    texture_hash := 0
    palette_hash := 0
    active_uv_rect := exampleRect
    palette_record_flags := PaletteRecordFlags.None
    page_refs :=
      ⟨[⟨some 1, some (ListPtr.page 0), some ⟨0, NodeSlot.page_ref 0⟩, none⟩,
        exampleNullNode, exampleNullNode, exampleNullNode, exampleNullNode, exampleNullNode],
        rfl⟩
    hash_cache_ref :=
      ⟨some 1, some (ListPtr.hash_cache 0), none, some ⟨0, NodeSlot.hash_cache_ref⟩⟩ }

/-- The cache holding the two sources. -/
def exampleState : State :=
  { sources := [some exampleSource0, some exampleSource1]
    pages :=
      [⟨some ⟨0, NodeSlot.page_ref 0⟩, some ⟨1, NodeSlot.page_ref 0⟩⟩,
       ⟨some ⟨0, NodeSlot.page_ref 1⟩, some ⟨0, NodeSlot.page_ref 1⟩⟩]
    hash_cache :=
      [some ⟨⟨some ⟨1, NodeSlot.hash_cache_ref⟩, some ⟨0, NodeSlot.hash_cache_ref⟩⟩, some 10⟩]
    gpu_textures := [10] }

/-- The node sequences of the lists of `exampleState`. -/
def exampleSeqs : ListPtr → List NodePtr
  | ListPtr.page 0 => [⟨0, NodeSlot.page_ref 0⟩, ⟨1, NodeSlot.page_ref 0⟩]
  | ListPtr.page 1 => [⟨0, NodeSlot.page_ref 1⟩]
  | ListPtr.hash_cache 0 => [⟨1, NodeSlot.hash_cache_ref⟩, ⟨0, NodeSlot.hash_cache_ref⟩]
  | _ => []

/-- A byte hash for the examples: the sum of the bytes. -/
def exampleHash (bytes : List u8) : HashType :=
  ⟨(bytes.map (fun b => b.val)).sum % 18446744073709551616, Nat.mod_lt _ (by decide)⟩

/-- A palette addressing for the examples: entry `i` of palette register `r` is the word at
`r.bits + i`. -/
def exampleEntryAddr (palette : GPUTexturePaletteReg) (_ : GPUTextureMode) (i : Nat) : Nat :=
  palette.bits.val + i

/-- A VRAM of zeros. -/
def exampleVRAM0 : VRAM := fun _ => 0

/-- A VRAM of zeros but for the word at address 9. -/
def exampleVRAM1 : VRAM := fun a => if a = 9 then 77 else 0

/-! ## Theorems: SourceKey -/

theorem memcmp_eq_zero_iff (p q : List u8) (n : Nat) (hp : n ≤ p.length) (hq : n ≤ q.length) :
    memcmp p q n = 0 ↔ p.take n = q.take n := by
  induction n generalizing p q with
  | zero => simp [memcmp]
  | succ n ih =>
    cases p with
    | nil => simp at hp
    | cons a p =>
      cases q with
      | nil => simp at hq
      | cons b q =>
        simp only [List.length_cons, Nat.add_le_add_iff_right] at hp hq
        by_cases hab : a = b
        · subst hab
          simp [memcmp, ih p q hp hq]
        · have hv : a.val ≠ b.val := fun h => hab (Fin.ext h)
          have hne : ((a.val : Int) - (b.val : Int)) ≠ 0 := by omega
          simp [memcmp, hab, hne]

theorem SourceKey.bytes_length (k : SourceKey) : k.bytes.length = SourceKey.sizeof := rfl

theorem u16_eq_of_lo_hi (x y : u16) (hl : u16.lo x = u16.lo y) (hh : u16.hi x = u16.hi y) :
    x = y := by
  have h1 : x.val % 256 = y.val % 256 := congrArg Fin.val hl
  have h2 : x.val / 256 = y.val / 256 := congrArg Fin.val hh
  apply Fin.ext
  omega

theorem SourceKey.bytes_injective : Function.Injective SourceKey.bytes := by
  intro a b h
  obtain ⟨pa, ⟨ma⟩, ⟨ba⟩⟩ := a
  obtain ⟨pb, ⟨mb⟩, ⟨bb⟩⟩ := b
  simp only [SourceKey.bytes, List.cons.injEq, and_true] at h
  obtain ⟨h1, h2, h3, h4⟩ := h
  have h5 := u16_eq_of_lo_hi ba bb h3 h4
  subst h1 h2 h5
  rfl

theorem SourceKey.eq_iff_bytes (a b : SourceKey) : a.eq b = true ↔ b.bytes = a.bytes := by
  have h := memcmp_eq_zero_iff b.bytes a.bytes SourceKey.sizeof
    (le_of_eq (SourceKey.bytes_length b).symm) (le_of_eq (SourceKey.bytes_length a).symm)
  have ta : a.bytes.take SourceKey.sizeof = a.bytes := rfl
  have tb : b.bytes.take SourceKey.sizeof = b.bytes := rfl
  rw [ta, tb] at h
  simp [SourceKey.eq, h]

theorem SourceKey.eq_iff (a b : SourceKey) : a.eq b = true ↔ a = b := by
  rw [SourceKey.eq_iff_bytes]
  constructor
  · intro h
    exact (SourceKey.bytes_injective h).symm
  · intro h
    rw [h]

theorem SourceKey.ext_fields (a b : SourceKey) :
    a = b ↔ (a.page = b.page ∧ a.mode = b.mode ∧ a.palette = b.palette) := by
  constructor
  · intro h
    subst h
    exact ⟨rfl, rfl, rfl⟩
  · rintro ⟨h1, h2, h3⟩
    cases a
    cases b
    simp_all

/-- C1: for every two keys `a` and `b`, `a == b` (the `memcmp` over the 4-byte object
representation) is true exactly when `page`, `mode` and `palette` all agree. -/
theorem SourceKey.operator_eq_iff_fields_match (a b : SourceKey) :
    a.eq b = true ↔ (a.page = b.page ∧ a.mode = b.mode ∧ a.palette = b.palette) := by
  rw [SourceKey.eq_iff, SourceKey.ext_fields]

/-- C2: `HasPalette()` is true exactly for the 4-bit and the 8-bit palette mode, false for
the direct 16-bit mode, and two keys with the same mode give the same answer whatever
their page and palette. -/
theorem SourceKey.HasPalette_iff_palette_mode :
    (∀ k : SourceKey, k.HasPalette = true ↔
      (k.mode = GPUTextureMode.Palette4Bit ∨ k.mode = GPUTextureMode.Palette8Bit)) ∧
    (∀ k : SourceKey, k.mode = GPUTextureMode.Direct16Bit → k.HasPalette = false) ∧
    (∀ k k2 : SourceKey, k.mode = k2.mode → k.HasPalette = k2.HasPalette) := by
  refine ⟨?_, ?_, ?_⟩
  · rintro ⟨p, ⟨m⟩, r⟩
    simp only [SourceKey.HasPalette, GPUTextureMode.Direct16Bit, GPUTextureMode.Palette4Bit,
      GPUTextureMode.Palette8Bit, decide_eq_true_eq, GPUTextureMode.mk.injEq]
    constructor
    · intro h
      have h2 : m.val < 2 := h
      rcases Nat.lt_or_ge m.val 1 with h0 | h1
      · left
        apply Fin.ext
        show m.val = 0
        omega
      · right
        apply Fin.ext
        show m.val = 1
        omega
    · rintro (h | h) <;> subst h <;> decide
  · intro k hk
    simp [SourceKey.HasPalette, hk]
  · intro k k2 h
    simp [SourceKey.HasPalette, h]

/-- C3: a key occupies exactly 4 bytes, its three members fill them (8 + 8 + 16 = 32 bits,
no padding), every key's object representation has that length, and the map from keys
to representations is injective. -/
theorem SourceKey.packed_four_bytes_injective :
    SourceKey.sizeof = 4 ∧
    SourceKey.pageBits + SourceKey.modeBits + SourceKey.paletteBits = 8 * SourceKey.sizeof ∧
    (∀ k : SourceKey, k.bytes.length = SourceKey.sizeof) ∧
    Function.Injective SourceKey.bytes :=
  ⟨rfl, rfl, SourceKey.bytes_length, SourceKey.bytes_injective⟩

theorem SourceKey.ne_eq_not_eq (a b : SourceKey) : a.ne b = !(a.eq b) := by
  simp [SourceKey.ne, SourceKey.eq, bne]

/-- C8: `a != b` is the negation of `a == b`, and `==` is reflexive, symmetric and
transitive. -/
theorem SourceKey.ne_negates_eq_and_eq_is_equivalence :
    (∀ a b : SourceKey, a.ne b = !(a.eq b)) ∧
    (∀ a : SourceKey, a.eq a = true) ∧
    (∀ a b : SourceKey, a.eq b = true → b.eq a = true) ∧
    (∀ a b c : SourceKey, a.eq b = true → b.eq c = true → a.eq c = true) := by
  refine ⟨SourceKey.ne_eq_not_eq, ?_, ?_, ?_⟩
  · intro a
    exact (SourceKey.eq_iff a a).2 rfl
  · intro a b h
    exact (SourceKey.eq_iff b a).2 ((SourceKey.eq_iff a b).1 h).symm
  · intro a b c h1 h2
    exact (SourceKey.eq_iff a c).2 (((SourceKey.eq_iff a b).1 h1).trans ((SourceKey.eq_iff b c).1 h2))

theorem SourceKey.assign_this (st : KeyStore) (this k : Nat) :
    SourceKey.assign st this k this = st k := by
  by_cases h : k = this
  · subst h
    simp [SourceKey.assign]
  · simp [SourceKey.assign, Function.update_noteq h]

theorem SourceKey.assign_other (st : KeyStore) (this k a : Nat) (h : a ≠ this) :
    SourceKey.assign st this k a = st a := by
  simp [SourceKey.assign, Function.update_noteq h]

/-- C9: the copy-constructed key compares equal to its original; after `a = k` the three
members of `a` are those of `k`, `a == k` holds, `k` is unchanged (also when `a` and `k`
are the same object) and no other key is touched. -/
theorem SourceKey.copy_and_assign_preserve_eq :
    (∀ k : SourceKey, (SourceKey.copy k).eq k = true) ∧
    (∀ (st : KeyStore) (a k : Nat),
      (SourceKey.assign st a k a).page = (st k).page ∧
      (SourceKey.assign st a k a).mode = (st k).mode ∧
      (SourceKey.assign st a k a).palette.bits = (st k).palette.bits ∧
      (SourceKey.assign st a k a).eq (SourceKey.assign st a k k) = true ∧
      SourceKey.assign st a k k = st k ∧
      (∀ other : Nat, other ≠ a → SourceKey.assign st a k other = st other)) := by
  refine ⟨?_, ?_⟩
  · intro k
    exact (SourceKey.eq_iff _ _).2 rfl
  · intro st a k
    have hk : SourceKey.assign st a k k = st k := by
      by_cases h : k = a
      · subst h
        exact SourceKey.assign_this st k k
      · exact SourceKey.assign_other st a k k h
    have ha := SourceKey.assign_this st a k
    refine ⟨by rw [ha], by rw [ha], by rw [ha], ?_, hk, ?_⟩
    · rw [ha, hk]
      exact (SourceKey.eq_iff _ _).2 rfl
    · intro other h
      exact SourceKey.assign_other st a k other h

/-- C10: `SourceKey(p, r, m)` has `page = p`, `mode = m`, `palette = r`; two keys so built
compare equal exactly when their arguments are pairwise equal; and `HasPalette()` of the
built key is decided by `m` alone. -/
theorem SourceKey.new_sets_fields :
    (∀ (p : u8) (r : GPUTexturePaletteReg) (m : GPUTextureMode),
      (SourceKey.new p r m).page = p ∧ (SourceKey.new p r m).mode = m ∧
      (SourceKey.new p r m).palette = r) ∧
    (∀ (p p2 : u8) (r r2 : GPUTexturePaletteReg) (m m2 : GPUTextureMode),
      (SourceKey.new p r m).eq (SourceKey.new p2 r2 m2) = true ↔ (p = p2 ∧ r = r2 ∧ m = m2)) ∧
    (∀ (p p2 : u8) (r r2 : GPUTexturePaletteReg) (m : GPUTextureMode),
      (SourceKey.new p r m).HasPalette = (SourceKey.new p2 r2 m).HasPalette) ∧
    (∀ (p : u8) (r : GPUTexturePaletteReg) (m : GPUTextureMode),
      (SourceKey.new p r m).HasPalette = decide (m.val < GPUTextureMode.Direct16Bit.val)) := by
  refine ⟨fun p r m => ⟨rfl, rfl, rfl⟩, ?_, fun _ _ _ _ _ => rfl, fun _ _ _ => rfl⟩
  intro p p2 r r2 m m2
  rw [SourceKey.eq_iff, SourceKey.ext_fields]
  simp only [SourceKey.new]
  tauto

/-! ## Theorems: the heap -/

theorem join_getElem?_set {α : Type} (l : List (Option α)) (i j : Nat) (v : Option α)
    (hi : i < l.length) :
    ((l.set i v)[j]?).join = if j = i then v else (l[j]?).join := by
  rw [List.getElem?_set]
  by_cases h : i = j
  · subst h
    simp [hi]
  · have h2 : ¬ j = i := fun e => h e.symm
    simp [h, h2]

theorem State.source?_lt {c : State} {src : Nat} {s : Source} (h : c.source? src = some s) :
    src < c.sources.length := by
  unfold State.source? at h
  by_contra hlt
  rw [List.getElem?_eq_none (Nat.le_of_not_lt hlt)] at h
  simp at h

theorem State.entry?_lt {c : State} {h : Nat} {e : HashCacheEntry} (he : c.entry? h = some e) :
    h < c.hash_cache.length := by
  unfold State.entry? at he
  by_contra hlt
  rw [List.getElem?_eq_none (Nat.le_of_not_lt hlt)] at he
  simp at he

theorem Source.node_setNode (s : Source) (a b : NodeSlot) (v : TListNode) :
    (s.setNode a v).node b = if b = a then v else s.node b := by
  cases a with
  | page_ref i =>
    cases b with
    | page_ref j =>
      simp only [Source.setNode, Source.node, NodeSlot.page_ref.injEq]
      rw [Mathlib.Vector.get_set_eq_if]
      by_cases h : i = j
      · subst h
        simp
      · have h2 : ¬ j = i := fun e => h e.symm
        simp [h, h2]
    | hash_cache_ref => simp [Source.setNode, Source.node]
  | hash_cache_ref =>
    cases b with
    | page_ref j => simp [Source.setNode, Source.node]
    | hash_cache_ref => simp [Source.setNode, Source.node]

theorem Source.setNode_meta (s : Source) (a : NodeSlot) (v : TListNode) :
    (s.setNode a v).num_page_refs = s.num_page_refs ∧
    (s.setNode a v).from_hash_cache = s.from_hash_cache := by
  cases a <;> exact ⟨rfl, rfl⟩

theorem State.SameShape.refl (c : State) : c.SameShape c :=
  ⟨rfl, rfl, rfl, fun _ => rfl, fun _ => rfl, rfl⟩

theorem State.SameShape.trans {a b c : State} (h1 : a.SameShape b) (h2 : b.SameShape c) :
    a.SameShape c :=
  ⟨h2.sources_length.trans h1.sources_length, h2.pages_length.trans h1.pages_length,
    h2.hash_cache_length.trans h1.hash_cache_length,
    fun src => (h2.source_meta src).trans (h1.source_meta src),
    fun h => (h2.entry_texture h).trans (h1.entry_texture h),
    h2.gpu_textures.trans h1.gpu_textures⟩

/-- Storing through a pointer to a live node succeeds, changes that node only and keeps the
shape of the state. -/
theorem State.setNode_spec (c : State) (p : NodePtr) (v : TListNode)
    (hp : (c.node? p).isSome = true) :
    ∃ c2, c.setNode p v = some c2 ∧ c.SameShape c2 ∧
      (∀ q, c2.node? q = if q = p then some v else c.node? q) ∧
      (∀ L, c2.list? L = c.list? L) := by
  unfold State.node? at hp
  cases hs : c.source? p.src with
  | none => simp [hs] at hp
  | some s =>
    have hlt := State.source?_lt hs
    have hsrc : ∀ j, State.source?
        { c with sources := c.sources.set p.src (some (s.setNode p.slot v)) } j =
        if j = p.src then some (s.setNode p.slot v) else c.source? j := by
      intro j
      exact join_getElem?_set c.sources p.src j _ hlt
    refine ⟨{ c with sources := c.sources.set p.src (some (s.setNode p.slot v)) }, ?_, ?_, ?_, ?_⟩
    · simp [State.setNode, hs]
    · refine ⟨by simp, rfl, rfl, ?_, fun _ => rfl, rfl⟩
      intro j
      rw [hsrc]
      by_cases hj : j = p.src
      · subst hj
        simp [hs, (Source.setNode_meta s p.slot v).1, (Source.setNode_meta s p.slot v).2]
      · simp [hj]
    · intro q
      unfold State.node?
      rw [hsrc]
      obtain ⟨qs, qslot⟩ := q
      obtain ⟨ps, pslot⟩ := p
      by_cases hj : qs = ps
      · subst hj
        simp only [↓reduceIte, Option.map_some', NodePtr.mk.injEq, true_and]
        rw [Source.node_setNode]
        simp only at hs
        by_cases hsl : qslot = pslot
        · simp [hsl]
        · simp [hsl, hs]
      · simp [hj]
    · intro L
      cases L <;> rfl

/-- Storing through a pointer to a live list succeeds, changes that list only and keeps the
shape of the state. -/
theorem State.setList_spec (c : State) (L : ListPtr) (l : TList)
    (hL : (c.list? L).isSome = true) :
    ∃ c2, c.setList L l = some c2 ∧ c.SameShape c2 ∧
      (∀ q, c2.node? q = c.node? q) ∧
      (∀ L2, c2.list? L2 = if L2 = L then some l else c.list? L2) := by
  cases L with
  | page pn =>
    have hlt : pn < c.pages.length := by
      by_contra hlt
      simp [State.list?, List.getElem?_eq_none (Nat.le_of_not_lt hlt)] at hL
    refine ⟨{ c with pages := c.pages.set pn l }, ?_, ?_, fun _ => rfl, ?_⟩
    · simp [State.setList, hlt]
    · exact ⟨rfl, by simp, rfl, fun _ => rfl, fun _ => rfl, rfl⟩
    · intro L2
      cases L2 with
      | page pn2 =>
        simp only [State.list?, ListPtr.page.injEq]
        rw [List.getElem?_set]
        by_cases h : pn = pn2
        · subst h
          simp [hlt]
        · have h2 : ¬ pn2 = pn := fun e => h e.symm
          simp [h, h2]
      | hash_cache h2 => simp [State.list?, State.entry?]
  | hash_cache h =>
    cases he : c.entry? h with
    | none => simp [State.list?, he] at hL
    | some e =>
      have hlt := State.entry?_lt he
      have hent : ∀ j, State.entry?
          { c with hash_cache := c.hash_cache.set h (some { e with sources := l }) } j =
          if j = h then some { e with sources := l } else c.entry? j := by
        intro j
        exact join_getElem?_set c.hash_cache h j _ hlt
      refine ⟨{ c with hash_cache := c.hash_cache.set h (some { e with sources := l }) },
        ?_, ?_, fun _ => rfl, ?_⟩
      · simp [State.setList, he]
      · refine ⟨rfl, rfl, by simp, fun _ => rfl, ?_, rfl⟩
        intro j
        rw [hent]
        by_cases hj : j = h
        · subst hj
          simp [he]
        · simp [hj]
      · intro L2
        cases L2 with
        | page pn2 => simp [State.list?]
        | hash_cache h2 =>
          simp only [State.list?, ListPtr.hash_cache.injEq]
          rw [hent]
          by_cases hj : h2 = h
          · simp [hj]
          · simp [hj]

/-! ## Theorems: ListUnlink -/

/-- Unlinking a node whose neighbours and list are live succeeds; it rewrites the
predecessor's `next`, the successor's `prev` and the list's `head` and `tail` as
`unlinkNode` and `unlinkList` say, and nothing else. -/
theorem ListUnlink_spec (c : State) (p : NodePtr) (node : TListNode) (L : ListPtr)
    (hp : c.node? p = some node) (hL : node.list = some L)
    (hlist : (c.list? L).isSome = true)
    (hprev : ∀ q, node.prev = some q → (c.node? q).isSome = true)
    (hnext : ∀ q, node.next = some q → (c.node? q).isSome = true) :
    ∃ c2, ListUnlink c p = some c2 ∧ c.SameShape c2 ∧
      (∀ q, c2.node? q = (c.node? q).map (unlinkNode node q)) ∧
      (∀ L2, c2.list? L2 = (c.list? L2).map (unlinkList node L L2)) := by
  -- first store: the predecessor's `next`, or the list's `head`
  have step1 : ∃ c1,
      (match node.prev with
        | some q => (c.node? q).bind (fun x => c.setNode q { x with next := node.next })
        | none => (c.list? L).bind (fun l => c.setList L { l with head := node.next })) = some c1 ∧
      c.SameShape c1 ∧
      (∀ q, c1.node? q = (c.node? q).map
        (fun x => { x with next := if node.prev = some q then node.next else x.next })) ∧
      (∀ L2, c1.list? L2 = (c.list? L2).map (fun l => if L2 = L then
        { l with head := if node.prev = none then node.next else l.head } else l)) := by
    cases hpr : node.prev with
    | some a =>
      obtain ⟨x, hx⟩ := Option.isSome_iff_exists.1 (hprev a hpr)
      obtain ⟨c1, h1, hs1, hn1, hl1⟩ := State.setNode_spec c a { x with next := node.next }
        (by rw [hx]; rfl)
      refine ⟨c1, by simp [hx, h1], hs1, ?_, ?_⟩
      · intro q
        rw [hn1]
        by_cases hq : q = a
        · subst hq
          simp [hx]
        · have hq2 : ¬ a = q := fun e => hq e.symm
          cases hcq : c.node? q <;> simp [hq, hq2]
      · intro L2
        rw [hl1]
        cases hcl : c.list? L2 with
        | none => rfl
        | some l => by_cases hL2 : L2 = L <;> simp [hL2]
    | none =>
      obtain ⟨l, hl⟩ := Option.isSome_iff_exists.1 hlist
      obtain ⟨c1, h1, hs1, hn1, hl1⟩ := State.setList_spec c L { l with head := node.next } hlist
      refine ⟨c1, by simp [hl, h1], hs1, ?_, ?_⟩
      · intro q
        rw [hn1]
        cases hcq : c.node? q <;> simp
      · intro L2
        rw [hl1]
        by_cases hL2 : L2 = L
        · subst hL2
          simp [hl]
        · cases hcl : c.list? L2 <;> simp [hL2]
  obtain ⟨c1, h1, hs1, hn1, hl1⟩ := step1
  -- second store: the successor's `prev`, or the list's `tail`
  have step2 : ∃ c2,
      (match node.next with
        | some q => (c1.node? q).bind (fun x => c1.setNode q { x with prev := node.prev })
        | none => (c1.list? L).bind (fun l => c1.setList L { l with tail := node.prev })) = some c2 ∧
      c1.SameShape c2 ∧
      (∀ q, c2.node? q = (c1.node? q).map
        (fun x => { x with prev := if node.next = some q then node.prev else x.prev })) ∧
      (∀ L2, c2.list? L2 = (c1.list? L2).map (fun l => if L2 = L then
        { l with tail := if node.next = none then node.prev else l.tail } else l)) := by
    have hlist1 : (c1.list? L).isSome = true := by
      rw [hl1]
      obtain ⟨l, hl⟩ := Option.isSome_iff_exists.1 hlist
      simp [hl]
    cases hnx : node.next with
    | some b =>
      have hb1 : (c1.node? b).isSome = true := by
        rw [hn1]
        obtain ⟨y, hy⟩ := Option.isSome_iff_exists.1 (hnext b hnx)
        simp [hy]
      obtain ⟨x, hx⟩ := Option.isSome_iff_exists.1 hb1
      obtain ⟨c2, h2, hs2, hn2, hl2⟩ := State.setNode_spec c1 b { x with prev := node.prev } hb1
      refine ⟨c2, by simp [hx, h2], hs2, ?_, ?_⟩
      · intro q
        rw [hn2]
        by_cases hq : q = b
        · subst hq
          simp [hx]
        · have hq2 : ¬ b = q := fun e => hq e.symm
          cases hcq : c1.node? q <;> simp [hq, hq2]
      · intro L2
        rw [hl2]
        cases hcl : c1.list? L2 with
        | none => rfl
        | some l => by_cases hL2 : L2 = L <;> simp [hL2]
    | none =>
      obtain ⟨l, hl⟩ := Option.isSome_iff_exists.1 hlist1
      obtain ⟨c2, h2, hs2, hn2, hl2⟩ := State.setList_spec c1 L { l with tail := node.prev } hlist1
      refine ⟨c2, by simp [hl, h2], hs2, ?_, ?_⟩
      · intro q
        rw [hn2]
        cases hcq : c1.node? q <;> simp
      · intro L2
        rw [hl2]
        by_cases hL2 : L2 = L
        · subst hL2
          simp [hl]
        · cases hcl : c1.list? L2 <;> simp [hL2]
  obtain ⟨c2, h2, hs2, hn2, hl2⟩ := step2
  refine ⟨c2, ?_, hs1.trans hs2, ?_, ?_⟩
  · simp only [ListUnlink, hp, hL, Option.some_bind]
    rw [h1]
    simp only [Option.some_bind]
    exact h2
  · intro q
    rw [hn2, hn1]
    cases hcq : c.node? q <;> simp [unlinkNode]
  · intro L2
    rw [hl2, hl1]
    cases hcl : c.list? L2 with
    | none => rfl
    | some l => by_cases hL2 : L2 = L <;> simp [unlinkList, hL2]

/-! ## Theorems: chained nodes -/

theorem headOr_append (xs ys : List NodePtr) (q : Option NodePtr) :
    headOr (xs ++ ys) q = headOr xs (headOr ys q) := by
  cases xs <;> rfl

theorem lastOr_append (xs ys : List NodePtr) (q : Option NodePtr) :
    lastOr (xs ++ ys) q = lastOr ys (lastOr xs q) := by
  induction xs generalizing q with
  | nil => rfl
  | cons x xs ih => exact ih (some x)

theorem headOr_cases (ns : List NodePtr) (q : Option NodePtr) :
    (ns = [] ∧ headOr ns q = q) ∨ ∃ r ∈ ns, headOr ns q = some r := by
  cases ns with
  | nil => exact Or.inl ⟨rfl, rfl⟩
  | cons x xs => exact Or.inr ⟨x, List.mem_cons_self _ _, rfl⟩

theorem lastOr_cases (ns : List NodePtr) (q : Option NodePtr) :
    (ns = [] ∧ lastOr ns q = q) ∨ ∃ r ∈ ns, lastOr ns q = some r := by
  induction ns generalizing q with
  | nil => exact Or.inl ⟨rfl, rfl⟩
  | cons x xs ih =>
    right
    rcases ih (some x) with ⟨hnil, h⟩ | ⟨r, hr, h⟩
    · exact ⟨x, List.mem_cons_self _ _, h⟩
    · exact ⟨r, List.mem_cons_of_mem _ hr, h⟩

theorem headOr_eq_none {ns : List NodePtr} (h : headOr ns none = none) : ns = [] := by
  cases ns with
  | nil => rfl
  | cons x xs => simp [headOr] at h

theorem Seg.congr {g g2 : NodePtr → Option TListNode} {L : ListPtr} :
    ∀ (ns : List NodePtr) (a b : Option NodePtr), (∀ q ∈ ns, g2 q = g q) →
      Seg g L a ns b → Seg g2 L a ns b := by
  intro ns
  induction ns with
  | nil => intro _ _ _ _; trivial
  | cons x xs ih =>
    intro a b hq h
    refine ⟨?_, ih (some x) b (fun q hq2 => hq q (List.mem_cons_of_mem _ hq2)) h.2⟩
    rw [hq x (List.mem_cons_self _ _)]
    exact h.1

/-- The node at a position of a chain has the members the chain dictates. -/
theorem Seg.at {g : NodePtr → Option TListNode} {L : ListPtr} (p : NodePtr)
    (post : List NodePtr) :
    ∀ (pre : List NodePtr) (a b : Option NodePtr), Seg g L a (pre ++ p :: post) b →
      g p = some ⟨some p.src, some L, lastOr pre a, headOr post b⟩ := by
  intro pre
  induction pre with
  | nil => intro a b h; exact h.1
  | cons x xs ih => intro a b h; exact ih (some x) b h.2

theorem Seg.node_of_mem {g : NodePtr → Option TListNode} {L : ListPtr} {ns : List NodePtr}
    {a b : Option NodePtr} (h : Seg g L a ns b) {q : NodePtr} (hq : q ∈ ns) :
    ∃ x, g q = some x ∧ x.ref = some q.src ∧ x.list = some L := by
  obtain ⟨pre, post, rfl⟩ := List.append_of_mem hq
  exact ⟨_, Seg.at q post pre a b h, rfl, rfl⟩

theorem unlinkNode_id (node : TListNode) (q : NodePtr) (x : TListNode)
    (h1 : node.prev ≠ some q) (h2 : node.next ≠ some q) : unlinkNode node q x = x := by
  simp [unlinkNode, h1, h2]

/-- Unlinking the node `p` of a chain leaves the chain of the other nodes. -/
theorem Seg.unlink_node {g g2 : NodePtr → Option TListNode} {L : ListPtr} {p : NodePtr}
    {node : TListNode} (hp : g p = some node)
    (hg2 : ∀ q, g2 q = (g q).map (unlinkNode node q)) (post : List NodePtr) :
    ∀ (pre : List NodePtr) (a b : Option NodePtr), Seg g L a (pre ++ p :: post) b →
      (pre ++ p :: post).Nodup → (∀ q ∈ pre ++ p :: post, a ≠ some q ∧ b ≠ some q) →
      Seg g2 L a (pre ++ post) b := by
  intro pre
  induction pre with
  | nil =>
    intro a b h hnd hab
    have hnode := h.1
    rw [hp] at hnode
    have hnode : node = ⟨some p.src, some L, a, headOr post b⟩ := Option.some.inj hnode
    cases post with
    | nil => trivial
    | cons s post2 =>
      simp only [List.nil_append, List.nodup_cons, List.mem_cons, not_or] at hnd
      obtain ⟨⟨hps, hpp⟩, hsp, hnd2⟩ := hnd
      have hs := h.2.1
      have has : a ≠ some s := (hab s (by simp)).1
      have hbs : b ≠ some s := (hab s (by simp)).2
      refine ⟨?_, ?_⟩
      · rw [hg2, hs, hnode]
        simp [unlinkNode, headOr, has]
      · refine Seg.congr post2 (some s) b ?_ h.2.2
        intro q hq
        have hqs : q ≠ s := fun e => hsp (e ▸ hq)
        have haq : a ≠ some q := (hab q (by simp [hq])).1
        rw [hg2]
        cases hgq : g q with
        | none => rfl
        | some x =>
          rw [Option.map_some', unlinkNode_id]
          · rw [hnode]; exact haq
          · rw [hnode]
            simp only [headOr]
            intro e
            exact hqs (Option.some.inj e).symm
  | cons x pre2 ih =>
    intro a b h hnd hab
    have hnode := Seg.at p post (x :: pre2) a b h
    rw [hp] at hnode
    have hnode : node = ⟨some p.src, some L, lastOr (x :: pre2) a, headOr post b⟩ :=
      Option.some.inj hnode
    have hnd0 := hnd
    simp only [List.cons_append, List.nodup_cons] at hnd
    obtain ⟨hx, hnd2⟩ := hnd
    have hrest : Seg g2 L (some x) (pre2 ++ post) b := by
      refine ih (some x) b h.2 hnd2 ?_
      intro q hq
      refine ⟨?_, (hab q (List.mem_cons_of_mem _ hq)).2⟩
      intro e
      exact hx ((Option.some.inj e) ▸ hq)
    refine ⟨?_, hrest⟩
    have hx1 := h.1
    have hbx : b ≠ some x := (hab x (by simp)).2
    -- `x` is not the successor of `p`
    have hnext : node.next ≠ some x := by
      rw [hnode]
      simp only
      rcases headOr_cases post b with ⟨_, h0⟩ | ⟨r, hr, h0⟩
      · rw [h0]; exact hbx
      · rw [h0]
        intro e
        have : r = x := Option.some.inj e
        subst this
        exact hx (by simp [hr])
    rw [hg2, hx1]
    cases pre2 with
    | nil =>
      have hprev : node.prev = some x := by rw [hnode]; rfl
      have hnx : node.next = headOr post b := by rw [hnode]
      rw [Option.map_some']
      unfold unlinkNode
      rw [if_neg hnext, if_pos hprev, hnx]
      rfl
    | cons y pre3 =>
      have hprev : node.prev ≠ some x := by
        rw [hnode]
        simp only [lastOr]
        rcases lastOr_cases pre3 (some y) with ⟨h1, h0⟩ | ⟨r, hr, h0⟩
        · rw [h0]
          intro e
          have : y = x := Option.some.inj e
          subst this
          exact hx (by simp)
        · rw [h0]
          intro e
          have : r = x := Option.some.inj e
          subst this
          exact hx (by simp [hr])
      rw [Option.map_some', unlinkNode_id _ _ _ hprev hnext]
      rfl

/-! ## Theorems: the invariant, list by list -/

theorem State.list?_isSome_page (c : State) (pn : Nat) :
    (c.list? (ListPtr.page pn)).isSome = true ↔ pn < c.pages.length := by
  simp only [State.list?]
  constructor
  · intro h
    by_contra hlt
    rw [List.getElem?_eq_none (Nat.le_of_not_lt hlt)] at h
    simp at h
  · intro h
    rw [List.getElem?_eq_getElem h]
    rfl

theorem State.list?_isSome_hash (c : State) (h : Nat) :
    (c.list? (ListPtr.hash_cache h)).isSome = true ↔
      (h < c.hash_cache.length ∧ (c.entry? h).isSome = true) := by
  simp only [State.list?, Option.isSome_map']
  constructor
  · intro he
    obtain ⟨e, he2⟩ := Option.isSome_iff_exists.1 he
    exact ⟨State.entry?_lt he2, he⟩
  · intro he
    exact he.2

/-- The invariant, stated for every live list and every live source at once. -/
theorem State.Inv_iff (c : State) (seqs : ListPtr → List NodePtr) (U : List NodePtr) :
    c.Inv seqs U ↔
      (∀ L, (c.list? L).isSome = true →
        c.IsList L (seqs L) ∧ ∀ p ∈ seqs L, p ∉ U ∧ c.SlotOK L p) ∧
      (∀ src s, c.source? src = some s →
        s.num_page_refs.val ≤ MAX_PAGE_REFS_PER_SOURCE ∧
        ∀ slot : NodeSlot, s.usesSlot slot = true → (⟨src, slot⟩ : NodePtr) ∉ U →
          ∃ L, (c.list? L).isSome = true ∧ (⟨src, slot⟩ : NodePtr) ∈ seqs L) := by
  constructor
  · rintro ⟨h1, h2, h3⟩
    refine ⟨?_, ?_⟩
    · intro L hL
      cases L with
      | page pn => exact h1 pn ((State.list?_isSome_page c pn).1 hL)
      | hash_cache h =>
        have := (State.list?_isSome_hash c h).1 hL
        exact h2 h this.1 this.2
    · intro src s hs
      obtain ⟨hb, hu⟩ := h3 src (State.source?_lt hs) s hs
      refine ⟨hb, ?_⟩
      intro slot hslot hU
      rcases hu slot hslot hU with ⟨pn, hpn, hmem⟩ | ⟨h, hh, he, hmem⟩
      · exact ⟨ListPtr.page pn, (State.list?_isSome_page c pn).2 hpn, hmem⟩
      · exact ⟨ListPtr.hash_cache h, (State.list?_isSome_hash c h).2 ⟨hh, he⟩, hmem⟩
  · rintro ⟨h1, h2⟩
    refine ⟨?_, ?_, ?_⟩
    · intro pn hpn
      exact h1 _ ((State.list?_isSome_page c pn).2 hpn)
    · intro h hh he
      exact h1 _ ((State.list?_isSome_hash c h).2 ⟨hh, he⟩)
    · intro src _ s hs
      obtain ⟨hb, hu⟩ := h2 src s hs
      refine ⟨hb, ?_⟩
      intro slot hslot hU
      obtain ⟨L, hL, hmem⟩ := hu slot hslot hU
      cases L with
      | page pn => exact Or.inl ⟨pn, (State.list?_isSome_page c pn).1 hL, hmem⟩
      | hash_cache h =>
        have := (State.list?_isSome_hash c h).1 hL
        exact Or.inr ⟨h, this.1, this.2, hmem⟩

/-- A member of a well-formed list is a live node of that list, and so are its
neighbours. -/
theorem State.IsList.node_facts {c : State} {L : ListPtr} {ns : List NodePtr}
    (h : c.IsList L ns) {p : NodePtr} (hp : p ∈ ns) :
    ∃ node, c.node? p = some node ∧ node.ref = some p.src ∧ node.list = some L ∧
      (∀ q, node.prev = some q → q ∈ ns) ∧ (∀ q, node.next = some q → q ∈ ns) := by
  obtain ⟨pre, post, rfl⟩ := List.append_of_mem hp
  refine ⟨_, Seg.at p post pre none none h.2.1, rfl, rfl, ?_, ?_⟩
  · intro q hq
    simp only at hq
    rcases lastOr_cases pre none with ⟨_, h0⟩ | ⟨r, hr, h0⟩
    · rw [h0] at hq; cases hq
    · rw [h0] at hq
      have : r = q := Option.some.inj hq
      subst this
      simp [hr]
  · intro q hq
    simp only at hq
    rcases headOr_cases post none with ⟨_, h0⟩ | ⟨r, hr, h0⟩
    · rw [h0] at hq; cases hq
    · rw [h0] at hq
      have : r = q := Option.some.inj hq
      subst this
      simp [hr]

theorem filter_ne_of_not_mem (ns : List NodePtr) (p : NodePtr) (h : p ∉ ns) :
    ns.filter (fun q => decide (q ≠ p)) = ns := by
  rw [List.filter_eq_self]
  intro q hq
  simp only [ne_eq, decide_not, Bool.not_eq_true', decide_eq_false_iff_not]
  intro e
  exact h (e ▸ hq)

theorem filter_ne_split (pre post : List NodePtr) (p : NodePtr)
    (h : (pre ++ p :: post).Nodup) :
    (pre ++ p :: post).filter (fun q => decide (q ≠ p)) = pre ++ post := by
  have h1 : p ∉ pre := by
    intro hm
    have := List.nodup_append.1 h
    exact this.2.2 hm (List.mem_cons_self _ _)
  have h2 : p ∉ post := by
    have := (List.nodup_append.1 h).2.1
    exact (List.nodup_cons.1 this).1
  rw [List.filter_append, List.filter_cons, filter_ne_of_not_mem pre p h1,
    filter_ne_of_not_mem post p h2]
  simp

/-- Unlinking a member of a well-formed list leaves the well-formed list of the other
members. -/
theorem State.IsList.unlink_same {c c2 : State} {L : ListPtr} {ns : List NodePtr}
    (h : c.IsList L ns) {p : NodePtr} (hp : p ∈ ns) {node : TListNode}
    (hnode : c.node? p = some node)
    (hn : ∀ q, c2.node? q = (c.node? q).map (unlinkNode node q))
    (hl : ∀ L2, c2.list? L2 = (c.list? L2).map (unlinkList node L L2)) :
    c2.IsList L (ns.filter (fun q => decide (q ≠ p))) := by
  obtain ⟨pre, post, rfl⟩ := List.append_of_mem hp
  obtain ⟨hlist, hseg, hnd⟩ := h
  rw [filter_ne_split pre post p hnd]
  have hat := Seg.at p post pre none none hseg
  rw [hnode] at hat
  have hat : node = ⟨some p.src, some L, lastOr pre none, headOr post none⟩ :=
    Option.some.inj hat
  refine ⟨?_, ?_, ?_⟩
  · rw [hl, hlist]
    simp only [Option.map_some', unlinkList, if_true, hat, headOr_append, lastOr_append]
    congr 2
    · cases pre with
      | nil => simp [lastOr, headOr]
      | cons x pre2 =>
        have : lastOr (x :: pre2) none ≠ none := by
          rcases lastOr_cases (x :: pre2) none with ⟨h0, _⟩ | ⟨r, _, h0⟩
          · cases h0
          · rw [h0]; simp
        simp [this, headOr]
    · cases post with
      | nil => simp [lastOr, headOr]
      | cons y post2 => simp [lastOr, headOr]
  · exact Seg.unlink_node hnode hn post pre none none hseg hnd (fun _ _ => ⟨by simp, by simp⟩)
  · have := List.nodup_append.1 hnd
    refine List.nodup_append.2 ⟨this.1, (List.nodup_cons.1 this.2.1).2, ?_⟩
    intro a ha hb
    exact this.2.2 ha (List.mem_cons_of_mem _ hb)

/-- Unlinking a member of one well-formed list leaves every other well-formed list as it
is. -/
theorem State.IsList.unlink_other {c c2 : State} {L L2 : ListPtr} {ns ns2 : List NodePtr}
    (h : c.IsList L ns) (h2 : c.IsList L2 ns2) (hne : L2 ≠ L) {p : NodePtr} (hp : p ∈ ns)
    {node : TListNode} (hnode : c.node? p = some node)
    (hn : ∀ q, c2.node? q = (c.node? q).map (unlinkNode node q))
    (hl : ∀ L3, c2.list? L3 = (c.list? L3).map (unlinkList node L L3)) :
    c2.IsList L2 ns2 := by
  obtain ⟨node2, hnode2, _, _, hprev, hnext⟩ := h.node_facts hp
  rw [hnode] at hnode2
  have : node = node2 := Option.some.inj hnode2
  subst this
  refine ⟨?_, ?_, h2.2.2⟩
  · rw [hl, h2.1]
    simp [unlinkList, hne]
  · refine Seg.congr ns2 none none ?_ h2.2.1
    intro q hq
    obtain ⟨x, hx, _, hxl, _, _⟩ := h2.node_facts hq
    rw [hn, hx, Option.map_some', unlinkNode_id]
    · intro e
      obtain ⟨y, hy, _, hyl, _, _⟩ := h.node_facts (hprev q e)
      rw [hx] at hy
      have : x = y := Option.some.inj hy
      subst this
      rw [hxl] at hyl
      exact hne (Option.some.inj hyl)
    · intro e
      obtain ⟨y, hy, _, hyl, _, _⟩ := h.node_facts (hnext q e)
      rw [hx] at hy
      have : x = y := Option.some.inj hy
      subst this
      rw [hxl] at hyl
      exact hne (Option.some.inj hyl)

/-! ## Theorems: the invariant under ListUnlink -/

theorem State.SameShape.source_of {c c2 : State} (h : c.SameShape c2) {src : Nat} {s2 : Source}
    (hs : c2.source? src = some s2) :
    ∃ s, c.source? src = some s ∧ s.num_page_refs = s2.num_page_refs ∧
      s.from_hash_cache = s2.from_hash_cache := by
  have hm := h.source_meta src
  rw [hs] at hm
  cases hc : c.source? src with
  | none => rw [hc] at hm; cases hm
  | some s =>
    rw [hc] at hm
    simp only [Option.map_some', Option.some.injEq, Prod.mk.injEq] at hm
    exact ⟨s, rfl, hm.1.symm, hm.2.symm⟩

theorem State.SameShape.source_to {c c2 : State} (h : c.SameShape c2) {src : Nat} {s : Source}
    (hs : c.source? src = some s) :
    ∃ s2, c2.source? src = some s2 ∧ s.num_page_refs = s2.num_page_refs ∧
      s.from_hash_cache = s2.from_hash_cache := by
  have hm := h.source_meta src
  rw [hs] at hm
  cases hc : c2.source? src with
  | none => rw [hc] at hm; cases hm
  | some s2 =>
    rw [hc] at hm
    simp only [Option.map_some', Option.some.injEq, Prod.mk.injEq] at hm
    exact ⟨s2, rfl, hm.1.symm, hm.2.symm⟩

theorem State.SameShape.entry_isSome {c c2 : State} (h : c.SameShape c2) (e : Nat) :
    (c2.entry? e).isSome = (c.entry? e).isSome := by
  have hm := h.entry_texture e
  cases h1 : c2.entry? e <;> cases h2 : c.entry? e <;> simp [h1, h2] at hm ⊢

theorem Source.slotMatches_congr {s s2 : Source} (h1 : s.num_page_refs = s2.num_page_refs)
    (h2 : s.from_hash_cache = s2.from_hash_cache) (L : ListPtr) (slot : NodeSlot) :
    s.slotMatches L slot = s2.slotMatches L slot := by
  cases L <;> cases slot <;> simp [Source.slotMatches, h1, h2]

theorem Source.usesSlot_congr {s s2 : Source} (h1 : s.num_page_refs = s2.num_page_refs)
    (h2 : s.from_hash_cache = s2.from_hash_cache) (slot : NodeSlot) :
    s.usesSlot slot = s2.usesSlot slot := by
  cases slot <;> simp [Source.usesSlot, h1, h2]

theorem State.SlotOK.of_sameShape {c c2 : State} (h : c.SameShape c2) {L : ListPtr}
    {p : NodePtr} (hp : c.SlotOK L p) : c2.SlotOK L p := by
  obtain ⟨s, hs, hm⟩ := hp
  obtain ⟨s2, hs2, h1, h2⟩ := h.source_to hs
  exact ⟨s2, hs2, by rw [← Source.slotMatches_congr h1 h2]; exact hm⟩

/-- Unlinking a node that a live source uses and that is not yet unlinked succeeds and keeps
the invariant, with the node removed from the sequences and added to the unlinked
nodes. -/
theorem State.Inv.unlink_used_node {c : State} {seqs : ListPtr → List NodePtr} {U : List NodePtr}
    (hinv : c.Inv seqs U) {src : Nat} {s : Source} {slot : NodeSlot}
    (hs : c.source? src = some s) (hslot : s.usesSlot slot = true)
    (hU : (⟨src, slot⟩ : NodePtr) ∉ U) :
    ∃ c2, ListUnlink c ⟨src, slot⟩ = some c2 ∧ c.SameShape c2 ∧
      (∀ L, (c2.list? L).isSome = (c.list? L).isSome) ∧
      c2.Inv (fun L => (seqs L).filter (fun q => decide (q ≠ ⟨src, slot⟩)))
        (⟨src, slot⟩ :: U) := by
  obtain ⟨hlists, hsources⟩ := (State.Inv_iff c seqs U).1 hinv
  obtain ⟨L, hL, hmem⟩ := (hsources src s hs).2 slot hslot hU
  have hisl := (hlists L hL).1
  obtain ⟨node, hnode, _, hnl, hprev, hnext⟩ := hisl.node_facts hmem
  obtain ⟨c2, hc2, hshape, hn, hl⟩ := ListUnlink_spec c ⟨src, slot⟩ node L hnode hnl hL
    (fun q hq => by
      obtain ⟨x, hx, _⟩ := hisl.node_facts (hprev q hq)
      rw [hx]; rfl)
    (fun q hq => by
      obtain ⟨x, hx, _⟩ := hisl.node_facts (hnext q hq)
      rw [hx]; rfl)
  have hlive : ∀ L2, (c2.list? L2).isSome = (c.list? L2).isSome := by
    intro L2
    rw [hl]
    simp
  refine ⟨c2, hc2, hshape, hlive, (State.Inv_iff c2 _ _).2 ⟨?_, ?_⟩⟩
  · intro L2 hL2
    rw [hlive] at hL2
    obtain ⟨hisl2, hmem2⟩ := hlists L2 hL2
    refine ⟨?_, ?_⟩
    · by_cases hLL : L2 = L
      · subst hLL
        exact hisl.unlink_same hmem hnode hn hl
      · have hnot : (⟨src, slot⟩ : NodePtr) ∉ seqs L2 := by
          intro hm
          obtain ⟨x, hx, _, hxl, _⟩ := hisl2.node_facts hm
          rw [hnode] at hx
          have : node = x := Option.some.inj hx
          subst this
          rw [hnl] at hxl
          exact hLL (Option.some.inj hxl).symm
        rw [filter_ne_of_not_mem _ _ hnot]
        exact hisl.unlink_other hisl2 hLL hmem hnode hn hl
    · intro q hq
      simp only [List.mem_filter, decide_eq_true_eq] at hq
      obtain ⟨hq1, hq2⟩ := hq
      obtain ⟨hqU, hqok⟩ := hmem2 q hq1
      refine ⟨?_, hqok.of_sameShape hshape⟩
      simp only [List.mem_cons, not_or]
      exact ⟨hq2, hqU⟩
  · intro src2 s2 hs2
    obtain ⟨s1, hs1, hm1, hm2⟩ := hshape.source_of hs2
    obtain ⟨hb, hu⟩ := hsources src2 s1 hs1
    refine ⟨by rw [← hm1]; exact hb, ?_⟩
    intro slot2 hslot2 hU2
    simp only [List.mem_cons, not_or] at hU2
    rw [← Source.usesSlot_congr hm1 hm2] at hslot2
    obtain ⟨L2, hL2, hmem2⟩ := hu slot2 hslot2 hU2.2
    refine ⟨L2, by rw [hlive]; exact hL2, ?_⟩
    simp only [List.mem_filter, decide_eq_true_eq]
    exact ⟨hmem2, hU2.1⟩


/-! ## Theorems: the steps of DestroySource -/

theorem State.node?_of_sources {c c2 : State} (h : c2.sources = c.sources) (q : NodePtr) :
    c2.node? q = c.node? q := by
  simp [State.node?, State.source?, h]

/-- The invariant depends on the sequences of the live lists only. -/
theorem State.Inv.congr_seqs {c : State} {seqs seqs2 : ListPtr → List NodePtr}
    {U : List NodePtr} (h : c.Inv seqs U)
    (heq : ∀ L, (c.list? L).isSome = true → seqs2 L = seqs L) : c.Inv seqs2 U := by
  obtain ⟨hlists, hsources⟩ := (State.Inv_iff c seqs U).1 h
  refine (State.Inv_iff c seqs2 U).2 ⟨?_, ?_⟩
  · intro L hL
    rw [heq L hL]
    exact hlists L hL
  · intro src s hs
    refine ⟨(hsources src s hs).1, ?_⟩
    intro slot hslot hU
    obtain ⟨L, hL, hmem⟩ := (hsources src s hs).2 slot hslot hU
    exact ⟨L, hL, by rw [heq L hL]; exact hmem⟩

/-- The invariant survives a change of the state that keeps the sources and either keeps a
list or removes it, provided a removed list was empty. -/
theorem State.Inv.restrict {c c2 : State} {seqs : ListPtr → List NodePtr} {U : List NodePtr}
    (h : c.Inv seqs U) (hsrc : c2.sources = c.sources)
    (hkeep : ∀ L, (c2.list? L).isSome = true → c2.list? L = c.list? L)
    (hgone : ∀ L, (c.list? L).isSome = true → (c2.list? L).isSome = false → seqs L = []) :
    c2.Inv seqs U := by
  obtain ⟨hlists, hsources⟩ := (State.Inv_iff c seqs U).1 h
  have hs2 : ∀ src, c2.source? src = c.source? src := by
    intro src
    simp [State.source?, hsrc]
  have hn2 : c2.node? = c.node? := funext (State.node?_of_sources hsrc)
  refine (State.Inv_iff c2 seqs U).2 ⟨?_, ?_⟩
  · intro L hL
    have hL1 : (c.list? L).isSome = true := by rw [← hkeep L hL]; exact hL
    obtain ⟨hisl, hmem⟩ := hlists L hL1
    refine ⟨⟨by rw [hkeep L hL]; exact hisl.1, by rw [hn2]; exact hisl.2.1, hisl.2.2⟩, ?_⟩
    intro q hq
    obtain ⟨hqU, s, hs, hm⟩ := hmem q hq
    exact ⟨hqU, s, by rw [hs2]; exact hs, hm⟩
  · intro src s hs
    rw [hs2] at hs
    refine ⟨(hsources src s hs).1, ?_⟩
    intro slot hslot hU
    obtain ⟨L, hL, hmem⟩ := (hsources src s hs).2 slot hslot hU
    refine ⟨L, ?_, hmem⟩
    cases hc : (c2.list? L).isSome with
    | true => rfl
    | false =>
      rw [hgone L hL hc] at hmem
      cases hmem

theorem filter_not_mem_nil (ns : List NodePtr) :
    ns.filter (fun q => decide (q ∉ ([] : List NodePtr))) = ns := by
  simp

theorem filter_not_mem_snoc (ns V : List NodePtr) (p : NodePtr) :
    (ns.filter (fun q => decide (q ≠ p))).filter (fun q => decide (q ∉ V)) =
      ns.filter (fun q => decide (q ∉ V ++ [p])) := by
  rw [List.filter_filter]
  apply List.filter_congr
  intro q _
  by_cases h1 : q = p <;> by_cases h2 : q ∈ V <;> simp [h1, h2]

/-- The loop over the page references unlinks `page_refs[i]`, ..., `page_refs[i + count - 1]`
and keeps the invariant: the nodes `V` it unlinked are nodes of the source, among them every
page reference in that range. -/
theorem unlinkPageRefs_spec (src : Nat) :
    ∀ (count i : Nat) (c : State) (seqs : ListPtr → List NodePtr) (U : List NodePtr),
      c.Inv seqs U →
      (∃ s, c.source? src = some s ∧ s.num_page_refs.val = i + count) →
      (∀ j : Fin MAX_PAGE_REFS_PER_SOURCE, i ≤ j.val → (⟨src, NodeSlot.page_ref j⟩ : NodePtr) ∉ U) →
      ∃ c2 V, unlinkPageRefs src i count c = some c2 ∧ c.SameShape c2 ∧
        (∀ L, (c2.list? L).isSome = (c.list? L).isSome) ∧
        c2.Inv (fun L => (seqs L).filter (fun q => decide (q ∉ V))) (V ++ U) ∧
        (∀ q ∈ V, ∃ j : Fin MAX_PAGE_REFS_PER_SOURCE, q = ⟨src, NodeSlot.page_ref j⟩) ∧
        (∀ j : Fin MAX_PAGE_REFS_PER_SOURCE, i ≤ j.val → j.val < i + count →
          (⟨src, NodeSlot.page_ref j⟩ : NodePtr) ∈ V) := by
  intro count
  induction count with
  | zero =>
    intro i c seqs U hinv _ _
    refine ⟨c, [], rfl, State.SameShape.refl c, fun _ => rfl, ?_, ?_, ?_⟩
    · have : (fun L => (seqs L).filter (fun q => decide (q ∉ ([] : List NodePtr)))) = seqs :=
        funext (fun L => filter_not_mem_nil (seqs L))
      rw [this]
      exact hinv
    · intro q hq
      cases hq
    · intro j h1 h2
      omega
  | succ count ih =>
    intro i c seqs U hinv hsrc hU
    obtain ⟨s, hs, hn⟩ := hsrc
    have hbound := (((State.Inv_iff c seqs U).1 hinv).2 src s hs).1
    have hi : i < MAX_PAGE_REFS_PER_SOURCE := by omega
    have huse : s.usesSlot (NodeSlot.page_ref ⟨i, hi⟩) = true := by
      simp only [Source.usesSlot, decide_eq_true_eq]
      omega
    obtain ⟨c1, hc1, hshape1, hlive1, hinv1⟩ :=
      hinv.unlink_used_node hs huse (hU ⟨i, hi⟩ (Nat.le_refl _))
    obtain ⟨s1, hs1, hm1, _⟩ := hshape1.source_to hs
    obtain ⟨c2, V, hc2, hshape2, hlive2, hinv2, hV, hcover⟩ :=
      ih (i + 1) c1 _ _ hinv1 ⟨s1, hs1, by rw [← hm1]; omega⟩ (by
        intro j hj
        simp only [List.mem_cons, not_or, NodePtr.mk.injEq, NodeSlot.page_ref.injEq, true_and]
        refine ⟨?_, hU j (by omega)⟩
        intro e
        rw [e] at hj
        simp at hj)
    refine ⟨c2, V ++ [⟨src, NodeSlot.page_ref ⟨i, hi⟩⟩], ?_, hshape1.trans hshape2, ?_, ?_, ?_, ?_⟩
    · simp only [unlinkPageRefs, hi, dite_true, hc1, Option.some_bind]
      exact hc2
    · intro L
      rw [hlive2, hlive1]
    · have hseq : (fun L => (seqs L).filter
            (fun q => decide (q ∉ V ++ [(⟨src, NodeSlot.page_ref ⟨i, hi⟩⟩ : NodePtr)]))) =
          (fun L => ((seqs L).filter
            (fun q => decide (q ≠ ⟨src, NodeSlot.page_ref ⟨i, hi⟩⟩))).filter
            (fun q => decide (q ∉ V))) :=
        funext (fun L => (filter_not_mem_snoc (seqs L) V _).symm)
      rw [hseq, List.append_assoc]
      exact hinv2
    · intro q hq
      rcases List.mem_append.1 hq with h | h
      · exact hV q h
      · simp only [List.mem_singleton] at h
        exact ⟨⟨i, hi⟩, h⟩
    · intro j h1 h2
      by_cases hji : j.val = i
      · have : j = ⟨i, hi⟩ := Fin.ext hji
        subst this
        simp
      · exact List.mem_append_left _ (hcover j (by omega) (by omega))

/-- The walk of a chain that ends the list yields the sources of its nodes, in order, when
the fuel covers its length. -/
theorem State.walk_of_seg (c : State) (L : ListPtr) :
    ∀ (ns : List NodePtr) (a : Option NodePtr) (fuel : Nat), Seg c.node? L a ns none →
      ns.length ≤ fuel → c.walk fuel (headOr ns none) = some (ns.map (fun q => q.src)) := by
  intro ns
  induction ns with
  | nil =>
    intro a fuel _ _
    cases fuel <;> rfl
  | cons p rest ih =>
    intro a fuel h hf
    cases fuel with
    | zero => simp at hf
    | succ f =>
      have hrest := ih (some p) f h.2 (by simpa using hf)
      have hp : c.node? p = some ⟨some p.src, some L, a, headOr rest none⟩ := h.1
      show c.walk (f + 1) (some p) = _
      simp only [State.walk, hp, hrest]
      rfl

theorem State.releaseTexture_fields (c : State) (t : Option Nat) :
    (c.releaseTexture t).sources = c.sources ∧ (c.releaseTexture t).pages = c.pages ∧
    (c.releaseTexture t).hash_cache = c.hash_cache := by
  cases t <;> exact ⟨rfl, rfl, rfl⟩

theorem State.list?_congr {c c2 : State} (hp : c2.pages = c.pages)
    (hh : c2.hash_cache = c.hash_cache) (L : ListPtr) : c2.list? L = c.list? L := by
  cases L <;> simp [State.list?, State.entry?, hp, hh]

theorem State.source?_congr {c c2 : State} (h : c2.sources = c.sources) (src : Nat) :
    c2.source? src = c.source? src := by
  simp [State.source?, h]

theorem Source.usesSlot_of_slotMatches {s : Source} {L : ListPtr} {slot : NodeSlot}
    (h : s.slotMatches L slot = true) : s.usesSlot slot = true := by
  cases L <;> cases slot <;> simp_all [Source.slotMatches, Source.usesSlot]

theorem filter_not_mem_singleton (ns : List NodePtr) (p : NodePtr) :
    ns.filter (fun q => decide (q ∉ [p])) = ns.filter (fun q => decide (q ≠ p)) := by
  apply List.filter_congr
  intro q _
  simp

/-- Leaving the hash cache list and releasing the texture succeeds and keeps the
invariant: the nodes `V` it unlinked are the hash cache node of the source, present when the
source has a hash cache entry. No source and no page list is added or removed. -/
theorem releaseTextureRef_spec {c : State} {seqs : ListPtr → List NodePtr} {U : List NodePtr}
    (hinv : c.Inv seqs U) {src : Nat} {s s0 : Source} (hs : c.source? src = some s)
    (hfrom : s0.from_hash_cache = s.from_hash_cache)
    (hU : (⟨src, NodeSlot.hash_cache_ref⟩ : NodePtr) ∉ U) :
    ∃ c1 V, releaseTextureRef c src s0 = some c1 ∧
      c1.pages.length = c.pages.length ∧
      (∀ src2, (c1.source? src2).map (fun x => (x.num_page_refs, x.from_hash_cache)) =
        (c.source? src2).map (fun x => (x.num_page_refs, x.from_hash_cache))) ∧
      (∀ L, (c1.list? L).isSome = true → (c.list? L).isSome = true) ∧
      c1.Inv (fun L => (seqs L).filter (fun q => decide (q ∉ V))) (V ++ U) ∧
      (∀ q ∈ V, q = (⟨src, NodeSlot.hash_cache_ref⟩ : NodePtr)) ∧
      (s.from_hash_cache.isSome = true → (⟨src, NodeSlot.hash_cache_ref⟩ : NodePtr) ∈ V) := by
  cases hfc : s.from_hash_cache with
  | none =>
    have hf := State.releaseTexture_fields c s0.texture
    refine ⟨c.releaseTexture s0.texture, [], ?_, by rw [hf.2.1], ?_, ?_, ?_, ?_, ?_⟩
    · simp [releaseTextureRef, hfrom, hfc]
    · intro src2
      rw [State.source?_congr hf.1]
    · intro L hL
      rw [State.list?_congr hf.2.1 hf.2.2] at hL
      exact hL
    · have : (fun L => (seqs L).filter (fun q => decide (q ∉ ([] : List NodePtr)))) = seqs :=
        funext (fun L => filter_not_mem_nil (seqs L))
      rw [this]
      refine hinv.restrict hf.1 (fun L _ => State.list?_congr hf.2.1 hf.2.2 L) ?_
      intro L h1 h2
      rw [State.list?_congr hf.2.1 hf.2.2, h1] at h2
      cases h2
    · intro q hq
      cases hq
    · intro h
      cases h
  | some h =>
    have huse : s.usesSlot NodeSlot.hash_cache_ref = true := by
      simp [Source.usesSlot, hfc]
    -- the entry is live: the node is in its list
    obtain ⟨hlists, hsources⟩ := (State.Inv_iff c seqs U).1 hinv
    obtain ⟨L, hL, hmem⟩ := (hsources src s hs).2 _ huse hU
    have hLh : L = ListPtr.hash_cache h := by
      obtain ⟨_, s2, hs2, hm⟩ := (hlists L hL).2 _ hmem
      simp only at hs2
      rw [Option.mem_def, hs] at hs2
      have : s = s2 := Option.some.inj hs2
      subst this
      cases L with
      | page pn => simp [Source.slotMatches] at hm
      | hash_cache h2 =>
        simp only [Source.slotMatches, decide_eq_true_eq] at hm
        rw [hfc] at hm
        rw [Option.some.inj hm]
    subst hLh
    obtain ⟨c0, hc0, hshape, hlive, hinv0⟩ := hinv.unlink_used_node hs huse hU
    have he0 : (c0.entry? h).isSome = true := by
      rw [hshape.entry_isSome]
      exact ((State.list?_isSome_hash c h).1 hL).2
    obtain ⟨e, he⟩ := Option.isSome_iff_exists.1 he0
    have hseq : (fun L => (seqs L).filter
          (fun q => decide (q ∉ [(⟨src, NodeSlot.hash_cache_ref⟩ : NodePtr)]))) =
        (fun L => (seqs L).filter (fun q => decide (q ≠ ⟨src, NodeSlot.hash_cache_ref⟩))) :=
      funext (fun L => filter_not_mem_singleton (seqs L) _)
    by_cases hempty : e.sources.head = none
    · -- the list became empty: the entry is destroyed with its texture
      have hf := State.releaseTexture_fields
        { c0 with hash_cache := c0.hash_cache.set h none } e.texture
      simp only at hf
      have hlt := State.entry?_lt he
      have hent : ∀ j, State.entry?
          ({ c0 with hash_cache := c0.hash_cache.set h none }.releaseTexture e.texture) j =
          if j = h then none else c0.entry? j := by
        intro j
        unfold State.entry?
        rw [hf.2.2]
        exact join_getElem?_set c0.hash_cache h j none hlt
      have hlist : ∀ L, State.list?
          ({ c0 with hash_cache := c0.hash_cache.set h none }.releaseTexture e.texture) L =
          if L = ListPtr.hash_cache h then none else c0.list? L := by
        intro L
        cases L with
        | page pn => simp [State.list?, hf.2.1]
        | hash_cache h2 =>
          simp only [State.list?, hent, ListPtr.hash_cache.injEq]
          by_cases hh : h2 = h <;> simp [hh]
      refine ⟨{ c0 with hash_cache := c0.hash_cache.set h none }.releaseTexture e.texture,
        [⟨src, NodeSlot.hash_cache_ref⟩], ?_, ?_, ?_, ?_, ?_, ?_, ?_⟩
      · simp [releaseTextureRef, hfrom, hfc, hc0, he, hempty]
      · rw [hf.2.1]
        exact hshape.pages_length
      · intro src2
        rw [State.source?_congr hf.1]
        exact hshape.source_meta src2
      · intro L hL2
        rw [hlist] at hL2
        by_cases hLL : L = ListPtr.hash_cache h
        · simp [hLL] at hL2
        · simp only [hLL, if_false] at hL2
          rw [← hlive]
          exact hL2
      · rw [hseq]
        refine hinv0.restrict hf.1 ?_ ?_
        · intro L hL2
          rw [hlist] at hL2 ⊢
          by_cases hLL : L = ListPtr.hash_cache h
          · simp [hLL] at hL2
          · simp [hLL]
        · intro L h1 h2
          rw [hlist] at h2
          by_cases hLL : L = ListPtr.hash_cache h
          · subst hLL
            have hisl := (((State.Inv_iff c0 _ _).1 hinv0).1 _ h1).1
            have hl0 := hisl.1
            simp only [State.list?, he, Option.map_some', Option.some.injEq] at hl0
            rw [hl0] at hempty
            exact headOr_eq_none hempty
          · simp only [hLL, if_false] at h2
            rw [h1] at h2
            cases h2
      · intro q hq
        simpa using hq
      · intro _
        simp
    · refine ⟨c0, [⟨src, NodeSlot.hash_cache_ref⟩], ?_, hshape.pages_length,
        hshape.source_meta, ?_, ?_, ?_, ?_⟩
      · simp [releaseTextureRef, hfrom, hfc, hc0, he, hempty]
      · intro L hL2
        rw [← hlive]
        exact hL2
      · rw [hseq]
        exact hinv0
      · intro q hq
        simpa using hq
      · intro _
        simp

/-- Freeing a source all of whose used nodes are unlinked gives a well-formed cache. -/
theorem State.Inv.free {c : State} {seqs : ListPtr → List NodePtr} {U : List NodePtr}
    (hinv : c.Inv seqs U) {src : Nat} (hlive : (c.source? src).isSome = true)
    (hUsrc : ∀ q ∈ U, q.src = src)
    (hcover : ∀ s slot, c.source? src = some s → s.usesSlot slot = true →
      (⟨src, slot⟩ : NodePtr) ∈ U) :
    State.WF { c with sources := c.sources.set src none } seqs ∧
    State.source? { c with sources := c.sources.set src none } src = none ∧
    ∀ L q, (c.list? L).isSome = true → q ∈ seqs L → q.src ≠ src := by
  obtain ⟨s, hs⟩ := Option.isSome_iff_exists.1 hlive
  have hlt := State.source?_lt hs
  obtain ⟨hlists, hsources⟩ := (State.Inv_iff c seqs U).1 hinv
  have hsrc : ∀ j, State.source? { c with sources := c.sources.set src none } j =
      if j = src then none else c.source? j := by
    intro j
    exact join_getElem?_set c.sources src j none hlt
  have hnosrc : ∀ L q, (c.list? L).isSome = true → q ∈ seqs L → q.src ≠ src := by
    intro L q hL hq hqs
    obtain ⟨hqU, s2, hs2, hm⟩ := (hlists L hL).2 q hq
    rw [Option.mem_def, hqs] at hs2
    have := hcover s2 q.slot hs2 (Source.usesSlot_of_slotMatches hm)
    rw [← hqs] at this
    exact hqU this
  refine ⟨?_, by rw [hsrc]; simp, hnosrc⟩
  unfold State.WF
  refine (State.Inv_iff _ seqs []).2 ⟨?_, ?_⟩
  · intro L hL
    have hL1 : (c.list? L).isSome = true := hL
    obtain ⟨hisl, hmem⟩ := hlists L hL1
    refine ⟨⟨hisl.1, ?_, hisl.2.2⟩, ?_⟩
    · refine Seg.congr _ none none ?_ hisl.2.1
      intro q hq
      simp only [State.node?]
      rw [hsrc]
      simp [hnosrc L q hL1 hq]
    · intro q hq
      obtain ⟨_, s2, hs2, hm⟩ := hmem q hq
      refine ⟨by simp, s2, ?_, hm⟩
      rw [Option.mem_def, hsrc]
      simp only [hnosrc L q hL1 hq, if_false]
      exact hs2
  · intro src2 s2 hs2
    rw [hsrc] at hs2
    by_cases h2 : src2 = src
    · simp [h2] at hs2
    · simp only [h2, if_false] at hs2
      refine ⟨(hsources src2 s2 hs2).1, ?_⟩
      intro slot hslot _
      have hnU : (⟨src2, slot⟩ : NodePtr) ∉ U := fun hm => h2 (hUsrc _ hm)
      obtain ⟨L, hL, hmem⟩ := (hsources src2 s2 hs2).2 slot hslot hnU
      exact ⟨L, hL, hmem⟩

/-- C6: in a well-formed cache, `DestroySource(src)` of a live source succeeds and frees
it; the cache stays well-formed, its lists holding the nodes they held before except those
of the source; every page list is still there; and the walk of any list of the cache, page
list or hash cache list, given fuel for its former length, ends and yields the sources it
held before without `src`. -/
theorem DestroySource_unlinks_source (c : State) (seqs : ListPtr → List NodePtr) (src : Nat)
    (hwf : c.WF seqs) (hlive : (c.source? src).isSome = true) :
    ∃ c2, DestroySource c src = some c2 ∧ c2.source? src = none ∧
      c2.WF (fun L => (seqs L).filter (fun q => decide (q.src ≠ src))) ∧
      c2.pages.length = c.pages.length ∧
      ∀ L, (c2.list? L).isSome = true →
        ∃ refs, src ∉ refs ∧
          refs = ((seqs L).filter (fun q => decide (q.src ≠ src))).map (fun q => q.src) ∧
          ∀ fuel, (seqs L).length ≤ fuel → c2.listSources fuel L = some refs := by
  obtain ⟨s, hs⟩ := Option.isSome_iff_exists.1 hlive
  have hinv : c.Inv seqs [] := hwf
  obtain ⟨hlists, hsources⟩ := (State.Inv_iff c seqs []).1 hinv
  -- the page references
  obtain ⟨c1, V1, hc1, hshape1, hlive1, hinv1, hV1, hcover1⟩ :=
    unlinkPageRefs_spec src s.num_page_refs.val 0 c seqs [] hinv ⟨s, hs, by simp⟩
      (fun _ _ => by simp)
  obtain ⟨s1, hs1, hm1, hm2⟩ := hshape1.source_to hs
  -- the hash cache reference and the texture
  obtain ⟨c2, V2, hc2, hpages2, hmeta2, hlive2, hinv2, hV2, hcover2⟩ :=
    releaseTextureRef_spec hinv1 hs1 hm2 (by
      intro hm
      rw [List.append_nil] at hm
      obtain ⟨j, hj⟩ := hV1 _ hm
      cases hj)
  have hs2 : ∃ s2, c2.source? src = some s2 ∧ s2.num_page_refs = s.num_page_refs ∧
      s2.from_hash_cache = s.from_hash_cache := by
    have := hmeta2 src
    rw [hs1] at this
    cases h : c2.source? src with
    | none => rw [h] at this; cases this
    | some s2 =>
      rw [h] at this
      simp only [Option.map_some', Option.some.injEq, Prod.mk.injEq] at this
      exact ⟨s2, rfl, this.1.trans hm1.symm, this.2.trans hm2.symm⟩
  obtain ⟨s2, hs2, hn2, hf2⟩ := hs2
  -- the source is freed
  obtain ⟨hwf3, hnone3, hnosrc⟩ := State.Inv.free hinv2
    (show (c2.source? src).isSome = true by rw [hs2]; rfl)
    (by
      intro q hq
      rcases List.mem_append.1 hq with h | h
      · rw [hV2 q h]
      · rw [List.append_nil] at h
        obtain ⟨j, hj⟩ := hV1 q h
        rw [hj])
    (by
      intro s3 slot hs3 huse
      rw [hs2] at hs3
      have : s2 = s3 := Option.some.inj hs3
      subst this
      cases slot with
      | page_ref j =>
        simp only [Source.usesSlot, decide_eq_true_eq] at huse
        rw [hn2] at huse
        exact List.mem_append_right _ (List.mem_append_left _
          (hcover1 j (Nat.zero_le _) (by omega)))
      | hash_cache_ref =>
        simp only [Source.usesSlot] at huse
        rw [hf2, hm2] at huse
        exact List.mem_append_left _ (hcover2 (by rw [← hm2] at huse ⊢; exact huse)))
  -- the sequences of the live lists are the former ones without the nodes of the source
  have hseq : ∀ L, (c2.list? L).isSome = true →
      (seqs L).filter (fun q => decide (q.src ≠ src)) =
        ((seqs L).filter (fun q => decide (q ∉ V1))).filter (fun q => decide (q ∉ V2)) := by
    intro L hL
    have hL0 : (c.list? L).isSome = true := by
      rw [← hlive1]
      exact hlive2 L hL
    rw [List.filter_filter]
    apply List.filter_congr
    intro q hq
    by_cases hqs : q.src = src
    · -- a node of the source in a list is one the source uses, hence unlinked
      obtain ⟨_, s3, hs3, hm⟩ := (hlists L hL0).2 q hq
      rw [Option.mem_def, hqs, hs] at hs3
      have : s = s3 := Option.some.inj hs3
      subst this
      have huse := Source.usesSlot_of_slotMatches hm
      have hmem : q ∈ V1 ∨ q ∈ V2 := by
        obtain ⟨qs, qslot⟩ := q
        simp only at hqs huse
        subst hqs
        cases qslot with
        | page_ref j =>
          simp only [Source.usesSlot, decide_eq_true_eq] at huse
          exact Or.inl (hcover1 j (Nat.zero_le _) (by omega))
        | hash_cache_ref =>
          simp only [Source.usesSlot] at huse
          exact Or.inr (hcover2 (by rw [← hm2]; exact huse))
      rcases hmem with h | h <;> simp [hqs, h]
    · have h1 : q ∉ V1 := by
        intro h
        obtain ⟨j, hj⟩ := hV1 q h
        rw [hj] at hqs
        exact hqs rfl
      have h2 : q ∉ V2 := by
        intro h
        rw [hV2 q h] at hqs
        exact hqs rfl
      simp [hqs, h1, h2]
  have hwf4 : State.WF { c2 with sources := c2.sources.set src none }
      (fun L => (seqs L).filter (fun q => decide (q.src ≠ src))) :=
    State.Inv.congr_seqs hwf3 (fun L hL => hseq L hL)
  refine ⟨{ c2 with sources := c2.sources.set src none }, ?_, hnone3, hwf4, ?_, ?_⟩
  · simp [DestroySource, hs, hc1, hc2]
  · exact hpages2.trans hshape1.pages_length
  · intro L hL
    refine ⟨_, ?_, rfl, ?_⟩
    · simp
    · intro fuel hfuel
      obtain ⟨hisl, _⟩ := ((State.Inv_iff _ _ _).1 hwf4).1 L hL
      obtain ⟨l, hl⟩ := Option.isSome_iff_exists.1 hL
      have hhead := hisl.1
      unfold State.listSources
      rw [hhead]
      simp only [Option.some_bind]
      exact State.walk_of_seg _ L _ none fuel hisl.2.1
        (Nat.le_trans (List.length_filter_le _ _) hfuel)


/-- Witness of C6: in the small cache, destroying source 0 succeeds, frees it, keeps the
cache well-formed and leaves no list whose walk yields source 0. -/
theorem DestroySource_unlinks_source_witness :
    (exampleState.WF exampleSeqs ∧ (exampleState.source? 0).isSome = true) ∧
    ∃ c2, DestroySource exampleState 0 = some c2 ∧ c2.source? 0 = none ∧
      c2.WF (fun L => (exampleSeqs L).filter (fun q => decide (q.src ≠ 0))) ∧
      c2.pages.length = exampleState.pages.length ∧
      ∀ L, (c2.list? L).isSome = true →
        ∃ refs, 0 ∉ refs ∧
          refs = ((exampleSeqs L).filter (fun q => decide (q.src ≠ 0))).map (fun q => q.src) ∧
          ∀ fuel, (exampleSeqs L).length ≤ fuel → c2.listSources fuel L = some refs :=
  ⟨⟨by decide, by decide⟩,
    DestroySource_unlinks_source exampleState exampleSeqs 0 (by decide) (by decide)⟩

/-- In the small cache the lists yield sources 0 and 1; after `DestroySource(0)` page 0 and
the hash cache list yield source 1 alone and page 1 yields nothing; after `DestroySource(1)`
as well, the entry is gone with its texture. -/
theorem DestroySource_example :
    exampleState.listSources 2 (ListPtr.page 0) = some [0, 1] ∧
    exampleState.listSources 2 (ListPtr.page 1) = some [0] ∧
    exampleState.listSources 2 (ListPtr.hash_cache 0) = some [1, 0] ∧
    (DestroySource exampleState 0).map
      (fun c => (c.listSources 2 (ListPtr.page 0), c.listSources 2 (ListPtr.page 1),
        c.listSources 2 (ListPtr.hash_cache 0), c.gpu_textures)) =
      some (some [1], some [], some [1], [10]) ∧
    ((DestroySource exampleState 0).bind (fun c => DestroySource c 1)).map
      (fun c => (c.listSources 2 (ListPtr.page 0), c.listSources 2 (ListPtr.page 1),
        c.listSources 2 (ListPtr.hash_cache 0), c.gpu_textures)) =
      some (some [], some [], none, []) := by
  decide

/-! ## Theorems: constants, Source, HashPartialPalette -/

/-- C4: `MAX_PAGE_REFS_PER_SOURCE` is 6; a source spans 4 pages in direct 16-bit mode,
2 + 4 in 8-bit palette mode and 1 + 1 in 4-bit palette mode; no mode spans more than
`MAX_PAGE_REFS_PER_SOURCE` pages and the 8-bit palette mode spans exactly that many. -/
theorem MAX_PAGE_REFS_PER_SOURCE_bounds_every_mode :
    MAX_PAGE_REFS_PER_SOURCE = 6 ∧
    pageRefsForMode GPUTextureMode.Direct16Bit = 4 ∧
    pageRefsForMode GPUTextureMode.Palette8Bit = 2 + 4 ∧
    pageRefsForMode GPUTextureMode.Palette4Bit = 1 + 1 ∧
    (∀ mode : GPUTextureMode, pageRefsForMode mode ≤ MAX_PAGE_REFS_PER_SOURCE) ∧
    pageRefsForMode GPUTextureMode.Palette8Bit = MAX_PAGE_REFS_PER_SOURCE := by
  refine ⟨rfl, by decide, by decide, by decide, ?_, by decide⟩
  intro mode
  unfold pageRefsForMode
  split_ifs <;> decide

theorem paletteBytes_congr (entryAddr : GPUTexturePaletteReg → GPUTextureMode → Nat → Nat)
    (vram vram2 : VRAM) (palette : GPUTexturePaletteReg) (mode : GPUTextureMode) (min max : u32)
    (h : ∀ i, min.val ≤ i → i ≤ max.val →
      vram (entryAddr palette mode i) = vram2 (entryAddr palette mode i)) :
    paletteBytes entryAddr vram palette mode min max =
      paletteBytes entryAddr vram2 palette mode min max := by
  unfold paletteBytes
  rw [List.flatMap_def, List.flatMap_def]
  congr 1
  apply List.map_congr_left
  intro i hi
  rw [List.mem_range'_1] at hi
  rw [h i hi.1 (by omega)]

/-- C5: for every palette register, mode and range `[min, max]`, two VRAM contents that
agree on the palette entries with index in `[min, max]` give the same
`HashPartialPalette`, whatever the other entries hold. -/
theorem HashPartialPalette_ignores_entries_outside_range (hashBytes : List u8 → HashType)
    (entryAddr : GPUTexturePaletteReg → GPUTextureMode → Nat → Nat) (vram vram2 : VRAM)
    (palette : GPUTexturePaletteReg) (mode : GPUTextureMode) (min max : u32)
    (h : ∀ i, min.val ≤ i → i ≤ max.val →
      vram (entryAddr palette mode i) = vram2 (entryAddr palette mode i)) :
    HashPartialPalette hashBytes entryAddr vram palette mode min max =
      HashPartialPalette hashBytes entryAddr vram2 palette mode min max := by
  unfold HashPartialPalette
  rw [paletteBytes_congr entryAddr vram vram2 palette mode min max h]

/-- Witness of C5: two VRAM contents that differ in entry 9 of palette 0 only give the same
hash over the entries 2 to 5, and different hashes over the entries 2 to 9. -/
theorem HashPartialPalette_ignores_entries_outside_range_witness :
    (∀ i, (2 : u32).val ≤ i → i ≤ (5 : u32).val →
      exampleVRAM0 (exampleEntryAddr ⟨0⟩ GPUTextureMode.Palette4Bit i) =
        exampleVRAM1 (exampleEntryAddr ⟨0⟩ GPUTextureMode.Palette4Bit i)) ∧
    HashPartialPalette exampleHash exampleEntryAddr exampleVRAM0 ⟨0⟩
        GPUTextureMode.Palette4Bit 2 5 =
      HashPartialPalette exampleHash exampleEntryAddr exampleVRAM1 ⟨0⟩
        GPUTextureMode.Palette4Bit 2 5 ∧
    HashPartialPalette exampleHash exampleEntryAddr exampleVRAM0 ⟨0⟩
        GPUTextureMode.Palette4Bit 2 9 ≠
      HashPartialPalette exampleHash exampleEntryAddr exampleVRAM1 ⟨0⟩
        GPUTextureMode.Palette4Bit 2 9 :=
  have h : ∀ i, (2 : u32).val ≤ i → i ≤ (5 : u32).val →
      exampleVRAM0 (exampleEntryAddr ⟨0⟩ GPUTextureMode.Palette4Bit i) =
        exampleVRAM1 (exampleEntryAddr ⟨0⟩ GPUTextureMode.Palette4Bit i) := by
    intro i _ h5
    have h5 : i ≤ 5 := h5
    have h9 : ¬ (i = 9) := by omega
    simp [exampleVRAM0, exampleVRAM1, exampleEntryAddr, h9]
  ⟨h, HashPartialPalette_ignores_entries_outside_range exampleHash exampleEntryAddr
    exampleVRAM0 exampleVRAM1 ⟨0⟩ GPUTextureMode.Palette4Bit 2 5 h, by decide⟩

/-- C7: every source embeds exactly 7 list nodes, the `MAX_PAGE_REFS_PER_SOURCE` = 6
elements of `page_refs` and `hash_cache_ref`; so a `num_page_refs` all of whose indices
`i < num_page_refs` are indices of `page_refs` is at most 6. -/
theorem Source.embeds_seven_list_nodes :
    MAX_PAGE_REFS_PER_SOURCE = 6 ∧
    ∀ s : Source,
      s.page_refs.toList.length = MAX_PAGE_REFS_PER_SOURCE ∧
      s.nodes = s.page_refs.toList ++ [s.hash_cache_ref] ∧
      s.nodes.length = 7 ∧
      ((∀ i, i < s.num_page_refs.val → i < s.page_refs.toList.length) →
        s.num_page_refs.val ≤ 6) := by
  refine ⟨rfl, ?_⟩
  intro s
  have hlen : s.page_refs.toList.length = MAX_PAGE_REFS_PER_SOURCE :=
    Mathlib.Vector.toList_length s.page_refs
  refine ⟨hlen, rfl, ?_, ?_⟩
  · simp [Source.nodes, hlen]
  · intro h
    by_contra hgt
    have := h 6 (by omega)
    rw [hlen] at this
    exact absurd this (by decide)

end GPUTextureCache
